import Mathlib

/-!
Verification development for the grip repository.

Shallow embedding of:
  * `grip/tools/shell.py` — the multi-layer shell safety filter
    (`_is_dangerous` and helpers).  Python regexes are embedded through a
    small backtracking regex matcher (`Re`) covering exactly the constructs
    the source patterns use; `re.IGNORECASE` search is modelled as a
    case-sensitive search of the lower-cased haystack, which is equivalent
    because every literal in the source patterns is lower-case ASCII.
  * `grip/tools/scheduler.py` — the natural-language cron parser and the
    legacy-file migration.
  * `grip/workflow/models.py` — workflow definitions, validation and the
    Kahn layering in `get_execution_order`.
  * `grip/heartbeat/service.py` — one beat of the heartbeat service.

Unicode classifications (`\w`, `\d`, `\s`, `str.lower`) are modelled over
ASCII; every string the program and the claims manipulate is ASCII.
-/

set_option maxRecDepth 4000

namespace Grip

/-! ## Python string helpers -/

/-- Python whitespace for `str.strip()` / `str.split()` / regex `\s` (ASCII). -/
def pyIsSpace (c : Char) : Bool :=
  c = ' ' || c = '\t' || c = '\n' || c = '\r' || c = '\x0b' || c = '\x0c'

/-- `str.strip()` on the character list. -/
def pyStripL (l : List Char) : List Char :=
  ((l.dropWhile pyIsSpace).reverse.dropWhile pyIsSpace).reverse

/-- `str.strip()`. -/
def pyStrip (s : String) : String := ⟨pyStripL s.data⟩

/-- `str.split()` with no separator: split on whitespace runs, drop empties. -/
def pySplitWsAux : List Char → List Char → List String
  | [], [] => []
  | [], cur => [⟨cur.reverse⟩]
  | c :: rest, cur =>
    if pyIsSpace c then
      match cur with
      | [] => pySplitWsAux rest []
      | _ => ⟨cur.reverse⟩ :: pySplitWsAux rest []
    else pySplitWsAux rest (c :: cur)

def pySplitWs (s : String) : List String := pySplitWsAux s.data []

/-- List-level startswith: `startsWithL pat l` holds when `pat` begins `l`. -/
def startsWithL : List Char → List Char → Bool
  | [], _ => true
  | _ :: _, [] => false
  | p :: ps, c :: cs => p = c && startsWithL ps cs

/-- Python `s.startswith(pre)`. -/
def pyStartswith (s pre : String) : Bool := startsWithL pre.data s.data

/-- Python `token.rsplit("/", maxsplit=1)[-1]`: the part after the last slash. -/
def baseName (t : String) : String :=
  ⟨(t.data.reverse.takeWhile (fun c => c ≠ '/')).reverse⟩

/-- Python `s.rstrip("/")`. -/
def pyRstripSlash (s : String) : String :=
  ⟨(s.data.reverse.dropWhile (fun c => c = '/')).reverse⟩

def isDigitC (c : Char) : Bool := '0' ≤ c && c ≤ '9'

/-- Python `s.lower()` (ASCII letters; the program only handles ASCII). -/
def pyLower (s : String) : String := ⟨s.data.map Char.toLower⟩

/-- Python `s[n:]`. -/
def strDrop (s : String) (n : Nat) : String := ⟨s.data.drop n⟩

/-- Python `s.isdigit()` (ASCII): non-empty and all digits. -/
def pyIsDigits (s : String) : Bool := !s.data.isEmpty && s.data.all isDigitC

/-- Python `" ".join(l)`. -/
def joinSpace : List String → String
  | [] => ""
  | [t] => t
  | t :: rest => t ++ " " ++ joinSpace rest

/-! ## A small regex engine

Supports exactly the constructs used by the patterns in
`grip/tools/shell.py`: literals, character classes, concatenation,
alternation, `*` and `+` over a character class (none of the starred
sub-expressions in the source are nullable, so this restriction is
faithful), `?`, the word boundary `\b`, and the end anchor `$`.
`search` decides whether a match exists anywhere, which is all the source
uses (`pattern.search(...)` in boolean position). -/

inductive Re where
  | eps : Re
  | cls : (Char → Bool) → Re
  | cat : Re → Re → Re
  | alt : Re → Re → Re
  | star : (Char → Bool) → Re
  | plus : (Char → Bool) → Re
  | quest : Re → Re
  | wordB : Re
  | eos : Re

/-- Regex `\w` (ASCII): letters, digits, underscore. -/
def isWordChar (c : Char) : Bool :=
  ('a' ≤ c && c ≤ 'z') || ('A' ≤ c && c ≤ 'Z') || ('0' ≤ c && c ≤ '9') || c = '_'

/-- `\b`: the previous and next characters disagree on word-char-ness. -/
def boundaryB (prev : Option Char) (s : List Char) : Bool :=
  let a := match prev with | some c => isWordChar c | none => false
  let b := match s with | c :: _ => isWordChar c | [] => false
  a != b

/-- `$` without `re.MULTILINE`: end of string, or just before a final newline. -/
def eosB (s : List Char) : Bool :=
  match s with
  | [] => true
  | ['\n'] => true
  | _ => false

/-- Kleene star over a character class, in continuation style. -/
def starCont (p : Char → Bool) (k : Option Char → List Char → Bool) :
    Option Char → List Char → Bool
  | prev, [] => k prev []
  | prev, c :: rest => k prev (c :: rest) || (p c && starCont p k (some c) rest)

/-- Backtracking matcher: `matchRe r prev s k` holds when some prefix of `s`
matches `r` (with `prev` the character before `s`, for `\b`) and `k` accepts
the rest. -/
def matchRe : Re → Option Char → List Char → (Option Char → List Char → Bool) → Bool
  | .eps, prev, s, k => k prev s
  | .cls _, _, [], _ => false
  | .cls p, _, c :: s, k => p c && k (some c) s
  | .cat a b, prev, s, k => matchRe a prev s (fun p2 s2 => matchRe b p2 s2 k)
  | .alt a b, prev, s, k => matchRe a prev s k || matchRe b prev s k
  | .star p, prev, s, k => starCont p k prev s
  | .plus _, _, [], _ => false
  | .plus p, _, c :: s, k => p c && starCont p k (some c) s
  | .quest r, prev, s, k => k prev s || matchRe r prev s k
  | .wordB, prev, s, k => boundaryB prev s && k prev s
  | .eos, prev, s, k => eosB s && k prev s

/-- Try a match at every position (leftmost-first), like `re.search`. -/
def searchFrom (r : Re) : Option Char → List Char → Bool
  | prev, [] => matchRe r prev [] (fun _ _ => true)
  | prev, c :: rest =>
    matchRe r prev (c :: rest) (fun _ _ => true) || searchFrom r (some c) rest

def reSearch (r : Re) (s : List Char) : Bool := searchFrom r none s

/-- Literal string as a regex. -/
def litR (s : String) : Re :=
  s.data.foldr (fun c r => Re.cat (Re.cls (fun d => d = c)) r) Re.eps

def catsR (l : List Re) : Re := l.foldr Re.cat Re.eps

def azP (c : Char) : Bool := 'a' ≤ c && c ≤ 'z'
def dotP (c : Char) : Bool := c ≠ '\n'
def ws1R : Re := Re.cls pyIsSpace
def wsStarR : Re := Re.star pyIsSpace
def wsPlusR : Re := Re.plus pyIsSpace
def dotStarR : Re := Re.star dotP

/-! ## Shell filter: static tables (`grip/tools/shell.py`) -/

def BLOCKED_COMMANDS : List String :=
  ["mkfs", "mkfs.ext2", "mkfs.ext3", "mkfs.ext4",
   "mkfs.xfs", "mkfs.btrfs", "mkfs.vfat", "mkfs.ntfs",
   "shutdown", "reboot", "halt", "poweroff"]

def BLOCKED_SYSTEMCTL_ACTIONS : List String := ["poweroff", "reboot", "halt"]

def RM_LONG_FLAG_MAP : List (String × Char) :=
  [("--recursive", 'r'), ("--force", 'f'), ("--interactive", 'i'),
   ("--dir", 'd'), ("--verbose", 'v'), ("--no-preserve-root", '!')]

def DANGEROUS_RM_TARGETS : List String :=
  ["/", "/*", "~", "$HOME",
   "/home", "/etc", "/var", "/usr", "/bin", "/sbin",
   "/lib", "/boot", "/root", "/opt", "/srv"]

def INTERPRETER_COMMANDS : List String :=
  ["python", "python3", "python3.10", "python3.11", "python3.12", "python3.13",
   "bash", "sh", "zsh", "dash", "ksh", "fish",
   "perl", "ruby", "node", "lua"]

/-- `_REGEX_DENY`: (pattern source, embedded regex).  Braces and quotes in
the source strings are written with `\x7b`, `\x7d`, `\x27` escapes. -/
def REGEX_DENY : List (String × Re) :=
  [(":\\(\\)\\s*\\x7b\\s*:\\|:\\s*&\\s*\\x7d\\s*;",
    catsR [litR ":()", wsStarR, litR "\x7b", wsStarR, litR ":|:", wsStarR,
           litR "&", wsStarR, litR "\x7d", wsStarR, litR ";"]),
   ("\\bdd\\s+if=", catsR [Re.wordB, litR "dd", wsPlusR, litR "if="]),
   (">\\s*/dev/sd[a-z]", catsR [litR ">", wsStarR, litR "/dev/sd", Re.cls azP]),
   (">\\s*/dev/nvme", catsR [litR ">", wsStarR, litR "/dev/nvme"]),
   (">\\s*/dev/disk", catsR [litR ">", wsStarR, litR "/dev/disk"]),
   ("\\bchmod\\s+.*\\s+/\\s*$",
    catsR [Re.wordB, litR "chmod", wsPlusR, dotStarR, wsPlusR, litR "/", wsStarR, Re.eos]),
   ("\\bchown\\s+.*\\s+/\\s*$",
    catsR [Re.wordB, litR "chown", wsPlusR, dotStarR, wsPlusR, litR "/", wsStarR, Re.eos]),
   ("\\bchattr\\s+\\+i\\s+/",
    catsR [Re.wordB, litR "chattr", wsPlusR, litR "+i", wsPlusR, litR "/"]),
   ("\\bcurl\\b.*\\|\\s*(ba)?sh\\b",
    catsR [Re.wordB, litR "curl", Re.wordB, dotStarR, litR "|", wsStarR,
           Re.quest (litR "ba"), litR "sh", Re.wordB]),
   ("\\bwget\\b.*\\|\\s*(ba)?sh\\b",
    catsR [Re.wordB, litR "wget", Re.wordB, dotStarR, litR "|", wsStarR,
           Re.quest (litR "ba"), litR "sh", Re.wordB]),
   ("\\bcurl\\b.*\\|\\s*python",
    catsR [Re.wordB, litR "curl", Re.wordB, dotStarR, litR "|", wsStarR, litR "python"]),
   ("\\bwget\\b.*\\|\\s*python",
    catsR [Re.wordB, litR "wget", Re.wordB, dotStarR, litR "|", wsStarR, litR "python"]),
   ("\\bcurl\\b.*\\|\\s*perl",
    catsR [Re.wordB, litR "curl", Re.wordB, dotStarR, litR "|", wsStarR, litR "perl"]),
   ("\\bcat\\s+.*\\.ssh/id_",
    catsR [Re.wordB, litR "cat", wsPlusR, dotStarR, litR ".ssh/id_"]),
   ("\\bcat\\s+.*\\.env\\b",
    catsR [Re.wordB, litR "cat", wsPlusR, dotStarR, litR ".env", Re.wordB]),
   ("\\bcat\\s+.*/\\.aws/credentials",
    catsR [Re.wordB, litR "cat", wsPlusR, dotStarR, litR "/.aws/credentials"]),
   ("\\bcat\\s+.*/\\.netrc",
    catsR [Re.wordB, litR "cat", wsPlusR, dotStarR, litR "/.netrc"]),
   ("\\bcat\\s+.*\\.(bash_|zsh_)?history",
    catsR [Re.wordB, litR "cat", wsPlusR, dotStarR, litR ".",
           Re.quest (Re.alt (litR "bash_") (litR "zsh_")), litR "history"]),
   ("\\bcurl\\b.*-[a-z]*d\\s*@.*\\.(env|pem|key)\\b",
    catsR [Re.wordB, litR "curl", Re.wordB, dotStarR, litR "-", Re.star azP,
           litR "d", wsStarR, litR "@", dotStarR, litR ".",
           Re.alt (litR "env") (Re.alt (litR "pem") (litR "key")), Re.wordB]),
   ("\\bscp\\s+.*\\.(env|pem|key)\\s",
    catsR [Re.wordB, litR "scp", wsPlusR, dotStarR, litR ".",
           Re.alt (litR "env") (Re.alt (litR "pem") (litR "key")), ws1R])]

/-- `_INTERPRETER_CODE_PATTERNS`. -/
def INTERPRETER_CODE_PATTERNS : List (String × Re) :=
  [("rm\\s.*-.*r.*-.*f.*\\s+/",
    catsR [litR "rm", ws1R, dotStarR, litR "-", dotStarR, litR "r", dotStarR,
           litR "-", dotStarR, litR "f", dotStarR, wsPlusR, litR "/"]),
   ("rm\\s+-rf\\s", catsR [litR "rm", wsPlusR, litR "-rf", ws1R]),
   ("rm\\s+--recursive", catsR [litR "rm", wsPlusR, litR "--recursive"]),
   ("\\bshutdown\\b", catsR [Re.wordB, litR "shutdown", Re.wordB]),
   ("\\breboot\\b", catsR [Re.wordB, litR "reboot", Re.wordB]),
   ("\\bhalt\\b", catsR [Re.wordB, litR "halt", Re.wordB]),
   ("\\bmkfs\\b", catsR [Re.wordB, litR "mkfs", Re.wordB]),
   ("\\.ssh/id_", litR ".ssh/id_"),
   ("\\.env\\b", catsR [litR ".env", Re.wordB]),
   ("/\\.aws/credentials", litR "/.aws/credentials"),
   ("\\.(bash_|zsh_)?history",
    catsR [litR ".", Re.quest (Re.alt (litR "bash_") (litR "zsh_")), litR "history"])]

/-- Case-insensitive search of every pattern in order; first hit returns the
pattern source (the `re.IGNORECASE` flag on lower-case-literal patterns is
equivalent to searching the lower-cased haystack). -/
def regexScan (pats : List (String × Re)) (s : String) : Option String :=
  pats.findSome? (fun pr => if reSearch pr.2 (pyLower s).data then some pr.1 else none)

/-! ## Shell filter: `_split_shell_commands` -/

def emitPart (cur : List Char) (rest : List String) : List String :=
  let part := pyStrip ⟨cur.reverse⟩
  if part = "" then rest else part :: rest

/-- Quote-aware splitter on unquoted `;`, `&&`, `||` (port of
`_split_shell_commands`): arguments are remaining input, current part
(reversed), in-single-quote, in-double-quote.  Two-character forms
(`\x`, `&&`, `||`) are matched syntactically; inside quotes they fall back
to single-character appends, exactly as the indexed loop in the source. -/
def splitShellAux : List Char → List Char → Bool → Bool → List String
  | [], cur, _, _ => emitPart cur []
  | '\\' :: d :: rest2, cur, insng, indbl =>
    if !insng then splitShellAux rest2 (d :: '\\' :: cur) insng indbl
    else splitShellAux (d :: rest2) ('\\' :: cur) insng indbl
  | '&' :: '&' :: rest2, cur, insng, indbl =>
    if !insng && !indbl then emitPart cur (splitShellAux rest2 [] insng indbl)
    else splitShellAux ('&' :: rest2) ('&' :: cur) insng indbl
  | '|' :: '|' :: rest2, cur, insng, indbl =>
    if !insng && !indbl then emitPart cur (splitShellAux rest2 [] insng indbl)
    else splitShellAux ('|' :: rest2) ('|' :: cur) insng indbl
  | c :: rest, cur, insng, indbl =>
    if c = '\'' && !indbl then splitShellAux rest (c :: cur) (!insng) indbl
    else if c = '"' && !insng then splitShellAux rest (c :: cur) insng (!indbl)
    else if c = ';' && !insng && !indbl then emitPart cur (splitShellAux rest [] insng indbl)
    else splitShellAux rest (c :: cur) insng indbl

def splitShellCommands (command : String) : List String :=
  splitShellAux command.data [] false false

/-! ## Shell filter: `_tokenize` (shlex with posix mode, whitespace split) -/

/-- `shlex` whitespace is `" \t\r\n"`. -/
def shlexWs (c : Char) : Bool := c = ' ' || c = '\t' || c = '\r' || c = '\n'

inductive LexSt where
  | norm : LexSt
  | sq : LexSt
  | dq : LexSt

/-- Port of `shlex.split` (posix, `whitespace_split=True`, comments off):
state, current token (reversed), token-in-progress flag, remaining input.
Errors model `ValueError` (unbalanced quote / trailing escape). -/
def shlexAux : LexSt → List Char → Bool → List Char → Except Unit (List String)
  | .norm, cur, inTok, [] => .ok (if inTok then [⟨cur.reverse⟩] else [])
  | .norm, cur, _, '\\' :: d :: rest2 => shlexAux .norm (d :: cur) true rest2
  | .norm, _, _, ['\\'] => .error ()
  | .norm, cur, inTok, c :: rest =>
    if shlexWs c then
      if inTok then
        match shlexAux .norm [] false rest with
        | .ok ts => .ok (⟨cur.reverse⟩ :: ts)
        | .error e => .error e
      else shlexAux .norm [] false rest
    else if c = '\'' then shlexAux .sq cur true rest
    else if c = '"' then shlexAux .dq cur true rest
    else shlexAux .norm (c :: cur) true rest
  | .sq, _, _, [] => .error ()
  | .sq, cur, _, c :: rest =>
    if c = '\'' then shlexAux .norm cur true rest
    else shlexAux .sq (c :: cur) true rest
  | .dq, _, _, [] => .error ()
  | .dq, cur, _, '\\' :: d :: rest2 =>
    if d = '"' || d = '\\' then shlexAux .dq (d :: cur) true rest2
    else shlexAux .dq (d :: '\\' :: cur) true rest2
  | .dq, _, _, ['\\'] => .error ()
  | .dq, cur, _, c :: rest =>
    if c = '"' then shlexAux .norm cur true rest
    else shlexAux .dq (c :: cur) true rest

/-- `_tokenize`: shlex, falling back to whitespace split on parse error. -/
def tokenizeCmd (command : String) : List String :=
  match shlexAux .norm [] false command.data with
  | .ok ts => ts
  | .error _ => pySplitWs command

/-! ## Shell filter: `_strip_sudo`, `_extract_rm_flags`, `_extract_rm_targets`, `_check_rm` -/

/-- Skip `-X [arg]` pairs after a leading `sudo`; `none` models the index
running off the end (Python then returns the original token list). -/
def sudoTail : List String → Option (List String)
  | [] => none
  | t :: rest =>
    if pyStartswith t "-" then
      match rest with
      | [] => none
      | _ :: rest2 => sudoTail rest2
    else some (t :: rest)

def stripSudo (tokens : List String) : List String :=
  match tokens with
  | [] => []
  | t :: rest =>
    if t = "sudo" then
      match sudoTail rest with
      | some r => r
      | none => t :: rest
    else t :: rest

/-- Insertion into the flag set (Python `set.add`; membership is all that is
ever observed). -/
def addFlag (flags : List Char) (c : Char) : List Char :=
  if flags.contains c then flags else flags ++ [c]

def extractRmFlagsAux : List Char → List String → List Char
  | flags, [] => flags
  | flags, t :: rest =>
    if t = "--" then flags
    else if pyStartswith t "--" then
      match RM_LONG_FLAG_MAP.lookup t with
      | some c => extractRmFlagsAux (addFlag flags c) rest
      | none => extractRmFlagsAux flags rest
    else if pyStartswith t "-" && t.length > 1 && !pyIsDigits (strDrop t 1) then
      extractRmFlagsAux ((t.data.drop 1).foldl addFlag flags) rest
    else extractRmFlagsAux flags rest

def extractRmFlags (tokens : List String) : List Char :=
  extractRmFlagsAux [] (tokens.drop 1)

def extractRmTargetsAux : Bool → List String → List String
  | _, [] => []
  | pastFlags, t :: rest =>
    if t = "--" then extractRmTargetsAux true rest
    else if pastFlags || !pyStartswith t "-" then t :: extractRmTargetsAux pastFlags rest
    else extractRmTargetsAux pastFlags rest

def extractRmTargets (tokens : List String) : List String :=
  extractRmTargetsAux false (tokens.drop 1)

/-- `target.rstrip("/") or "/"`. -/
def normTarget (t : String) : String :=
  let n := pyRstripSlash t
  if n = "" then "/" else n

def dangerousMatch (n : String) : Option String :=
  DANGEROUS_RM_TARGETS.find? (fun d => n = d || n = pyRstripSlash d)

def checkRmTargets (hasR hasF : Bool) : List String → Option String
  | [] => none
  | t :: rest =>
    let n := normTarget t
    if hasR && n = "/" then some "rm -r on root filesystem"
    else if hasR && hasF then
      match dangerousMatch n with
      | some _ => some ("rm -rf on critical path: " ++ t)
      | none => checkRmTargets hasR hasF rest
    else checkRmTargets hasR hasF rest

/-- `_check_rm`. -/
def checkRm (tokens : List String) : Option String :=
  let flags := extractRmFlags tokens
  let targets := extractRmTargets tokens
  if flags.contains '!' && flags.contains 'r' then
    some "rm with --no-preserve-root and recursive flag"
  else checkRmTargets (flags.contains 'r') (flags.contains 'f') targets

/-! ## Shell filter: `_check_interpreter` and `_is_dangerous` -/

/-- Extract the `-c` code argument (`-c X` or `-cX`). -/
def findCodeArg : List String → Option String
  | [] => none
  | t :: rest =>
    if t = "-c" then
      match rest with
      | a :: _ => some a
      | [] => findCodeArg rest
    else if pyStartswith t "-c" && t.length > 2 then some (strDrop t 2)
    else findCodeArg rest

/-- `_check_interpreter`, with the recursive call to `_is_dangerous`
abstracted as `recur` (instantiated at one less fuel = one more depth). -/
def checkInterpreterWith (recur : String → Option String)
    (tokens : List String) (base : String) : Option String :=
  let codeArg0 := findCodeArg tokens
  let codeArg :=
    if base = "eval" && tokens.length > 1 && codeArg0 = none then
      some (joinSpace (tokens.drop 1))
    else codeArg0
  match codeArg with
  | none => none
  | some code =>
    match recur code with
    | some danger => some ("Interpreter escape via " ++ base ++ " -c: " ++ danger)
    | none =>
      match regexScan INTERPRETER_CODE_PATTERNS code with
      | some src =>
        some ("Interpreter escape via " ++ base ++ " -c: code contains \x27" ++ src ++ "\x27")
      | none =>
        match regexScan REGEX_DENY code with
        | some src => some ("Interpreter escape via " ++ base ++ " -c: " ++ src)
        | none => none

/-- The per-sub-command body of the loop in `_is_dangerous` (layers 1 to 3). -/
def checkSubWith (recur : String → Option String) (sub : String) : Option String :=
  let tokens0 := tokenizeCmd sub
  if tokens0.isEmpty then none
  else
    match stripSudo tokens0 with
    | [] => none
    | t0 :: restTokens =>
      let base := baseName t0
      if BLOCKED_COMMANDS.contains base then some ("Blocked command: " ++ base)
      else if base = "systemctl" &&
          (match restTokens with
           | a :: _ => BLOCKED_SYSTEMCTL_ACTIONS.contains a
           | [] => false) then
        some ("systemctl " ++ restTokens.headD "" ++ " is blocked")
      else if base = "init" &&
          (match restTokens with
           | a :: _ => a = "0" || a = "6"
           | [] => false) then
        some ("init " ++ restTokens.headD "" ++ " (system halt/reboot)")
      else if base = "rm" then checkRm (t0 :: restTokens)
      else if INTERPRETER_COMMANDS.contains base || base = "eval" then
        checkInterpreterWith recur (t0 :: restTokens) base
      else none

/-- `_is_dangerous` with explicit fuel: fuel `f` corresponds to Python depth
`3 - f` (the source guards `_depth >= _MAX_CHECK_DEPTH` with
`_MAX_CHECK_DEPTH = 3` and recurses at `_depth + 1`). -/
def isDangerousFuel : Nat → String → Option String
  | 0, _ => none
  | fuel + 1, command =>
    match (splitShellCommands command).findSome? (checkSubWith (isDangerousFuel fuel)) with
    | some r => some r
    | none =>
      match regexScan REGEX_DENY command with
      | some src => some ("Blocked: matches pattern \x27" ++ src ++ "\x27")
      | none => none

/-- `_is_dangerous(command)` at the public entry point (depth 0). -/
def isDangerous (command : String) : Option String := isDangerousFuel 3 command

/-! ## Natural-language cron parser (`grip/tools/scheduler.py`)

Each regex rule of `_NL_PATTERNS` is embedded as a hand-written matcher.
All pattern literals are lower-case, so `re.IGNORECASE` search equals a
case-sensitive search of the lower-cased input; in every rule the adjacent
sub-patterns (`\s+`, `\d+`, literals) draw from disjoint character classes,
so the greedy deterministic matchers below are equivalent to the
backtracking regexes. -/

def DAY_MAP : List (String × String) :=
  [("monday", "1"), ("tuesday", "2"), ("wednesday", "3"), ("thursday", "4"),
   ("friday", "5"), ("saturday", "6"), ("sunday", "0"),
   ("mon", "1"), ("tue", "2"), ("wed", "3"), ("thu", "4"),
   ("fri", "5"), ("sat", "6"), ("sun", "0")]

/-- The weekday alternation, in the order it appears in the pattern. -/
def DAY_NAMES : List String :=
  ["monday", "tuesday", "wednesday", "thursday", "friday", "saturday", "sunday",
   "mon", "tue", "wed", "thu", "fri", "sat", "sun"]

/-- Python `int()` on a digit string. -/
def strToNat (s : String) : Nat :=
  s.data.foldl (fun n c => n * 10 + (c.toNat - 48)) 0

/-- `_parse_hour`. -/
def parseHour (hourStr : String) (ampm : Option String) : Nat :=
  let hour := strToNat hourStr
  match ampm with
  | some a => if a = "pm" && hour ≠ 12 then hour + 12
              else if a = "am" && hour = 12 then 0 else hour
  | none => hour

/-- Decimal digits of a natural number (Python `str(int)`); the fuel `n + 1`
dominates the digit count. -/
def natDigitsAux : Nat → Nat → List Char
  | 0, _ => []
  | _, 0 => []
  | fuel + 1, n => natDigitsAux fuel (n / 10) ++ [Nat.digitChar (n % 10)]

def natRepr (n : Nat) : String := if n = 0 then "0" else ⟨natDigitsAux (n + 1) n⟩

def intRepr (i : Int) : String :=
  if i < 0 then "-" ++ natRepr i.natAbs else natRepr i.toNat

/-- Match a literal at the current position, returning the rest. -/
def expectLit : List Char → List Char → Option (List Char)
  | [], s => some s
  | _ :: _, [] => none
  | p :: ps, c :: cs => if c = p then expectLit ps cs else none

/-- `\s+` (greedy; every rule follows it with a non-space class). -/
def skipWs1 : List Char → Option (List Char)
  | [] => none
  | c :: rest => if pyIsSpace c then some (rest.dropWhile pyIsSpace) else none

/-- `\s*`. -/
def skipWsStar (s : List Char) : List Char := s.dropWhile pyIsSpace

/-- `(\d+)` (greedy, at least one digit): captured digits and rest. -/
def takeDigits1 (s : List Char) : Option (List Char × List Char) :=
  let ds := s.takeWhile isDigitC
  if ds.isEmpty then none else some (ds, s.dropWhile isDigitC)

/-- `(\d{1,2})` (greedy): one or two digits. -/
def takeDigits12 : List Char → Option (List Char × List Char)
  | [] => none
  | c :: rest =>
    if isDigitC c then
      match rest with
      | d :: rest2 => if isDigitC d then some ([c, d], rest2) else some ([c], d :: rest2)
      | [] => some ([c], [])
    else none

/-- `\s*(am|pm)?`: optional am/pm marker after optional space. -/
def takeAmPm (s : List Char) : Option String :=
  let s2 := skipWsStar s
  if startsWithL "am".data s2 then some "am"
  else if startsWithL "pm".data s2 then some "pm"
  else none

/-- `re.search`: try the position matcher at every suffix, leftmost first. -/
def searchO (m : List Char → Option α) : List Char → Option α
  | [] => m []
  | c :: rest =>
    match m (c :: rest) with
    | some r => some r
    | none => searchO m rest

/-- `every\s+(\d+)\s+minutes?` at a position (the optional `s?` never
affects acceptance). -/
def matchEveryNMinutesAt (s : List Char) : Option (List Char) := do
  let s ← expectLit "every".data s
  let s ← skipWs1 s
  let (ds, s) ← takeDigits1 s
  let s ← skipWs1 s
  let _ ← expectLit "minute".data s
  pure ds

/-- `every\s+(\d+)\s+hours?` at a position. -/
def matchEveryNHoursAt (s : List Char) : Option (List Char) := do
  let s ← expectLit "every".data s
  let s ← skipWs1 s
  let (ds, s) ← takeDigits1 s
  let s ← skipWs1 s
  let _ ← expectLit "hour".data s
  pure ds

/-- `every\s+minute` at a position. -/
def matchEveryMinuteAt (s : List Char) : Option Unit := do
  let s ← expectLit "every".data s
  let s ← skipWs1 s
  let _ ← expectLit "minute".data s
  pure ()

/-- `every\s+hour` at a position. -/
def matchEveryHourAt (s : List Char) : Option Unit := do
  let s ← expectLit "every".data s
  let s ← skipWs1 s
  let _ ← expectLit "hour".data s
  pure ()

/-- `every\s+month\s+on\s+the\s+(\d{1,2})(st|nd|rd|th)?` at a position (the
optional ordinal suffix never affects acceptance). -/
def matchMonthAt (s : List Char) : Option (List Char) := do
  let s ← expectLit "every".data s
  let s ← skipWs1 s
  let s ← expectLit "month".data s
  let s ← skipWs1 s
  let s ← expectLit "on".data s
  let s ← skipWs1 s
  let s ← expectLit "the".data s
  let s ← skipWs1 s
  let (ds, _) ← takeDigits12 s
  pure ds

/-- `every\s+day\s+at\s+(\d{1,2})\s*(am|pm)?` at a position. -/
def matchEveryDayAt (s : List Char) : Option (List Char × Option String) := do
  let s ← expectLit "every".data s
  let s ← skipWs1 s
  let s ← expectLit "day".data s
  let s ← skipWs1 s
  let s ← expectLit "at".data s
  let s ← skipWs1 s
  let (ds, s) ← takeDigits12 s
  pure (ds, takeAmPm s)

/-- `\s+at\s+(\d{1,2})\s*(am|pm)?`: the tail after a weekday alternative. -/
def matchDayTail (s : List Char) : Option (List Char × Option String) := do
  let s ← skipWs1 s
  let s ← expectLit "at".data s
  let s ← skipWs1 s
  let (ds, s) ← takeDigits12 s
  pure (ds, takeAmPm s)

/-- The weekday alternation with regex backtracking: try each alternative in
pattern order; on tail failure fall through to the next alternative. -/
def tryDayAlts : List String → List Char → Option (String × List Char × Option String)
  | [], _ => none
  | d :: alts, s =>
    match expectLit d.data s with
    | some s2 =>
      match matchDayTail s2 with
      | some (ds, ap) => some (d, ds, ap)
      | none => tryDayAlts alts s
    | none => tryDayAlts alts s

/-- `every\s+(monday|...|sun)\s+at\s+(\d{1,2})\s*(am|pm)?` at a position. -/
def matchDayAt (s : List Char) : Option (String × List Char × Option String) := do
  let s ← expectLit "every".data s
  let s ← skipWs1 s
  tryDayAlts DAY_NAMES s

/-- `every\s+weekday\s+at\s+(\d{1,2})\s*(am|pm)?` at a position. -/
def matchWeekdayAt (s : List Char) : Option (List Char × Option String) := do
  let s ← expectLit "every".data s
  let s ← skipWs1 s
  let s ← expectLit "weekday".data s
  let s ← skipWs1 s
  let s ← expectLit "at".data s
  let s ← skipWs1 s
  let (ds, s) ← takeDigits12 s
  pure (ds, takeAmPm s)

def cronFieldChar (c : Char) : Bool :=
  c = '*' || isDigitC c || c = '/' || c = ',' || c = '-'

/-- `[*\d/,\-]+` (greedy): consume a non-empty cron field, return the rest. -/
def takeCronField (s : List Char) : Option (List Char) :=
  if (s.takeWhile cronFieldChar).isEmpty then none
  else some (s.dropWhile cronFieldChar)

/-- `re.match` of the anchored raw-cron pattern
`^([*\d/,\-]+\s+...\s+[*\d/,\-]+)$`; returns `group(1)` (which drops a
single trailing newline accepted by `$`). -/
def rawCronGroup (s : List Char) : Option (List Char) :=
  let rest := do
    let r ← takeCronField s
    let r ← skipWs1 r
    let r ← takeCronField r
    let r ← skipWs1 r
    let r ← takeCronField r
    let r ← skipWs1 r
    let r ← takeCronField r
    let r ← skipWs1 r
    takeCronField r
  match rest with
  | some [] => some s
  | some ['\n'] => some s.dropLast
  | _ => none

/-- `parse_natural_language`: the callable rules of `_NL_PATTERNS` fire in
list order (minutes, hours, minute, hour, month — the entries with a `None`
handler fall through), then the three re-searched phrases, then raw cron. -/
def parse_natural_language (expression : String) : Option String :=
  let text := pyStrip expression
  let low := (pyLower text).data
  match searchO matchEveryNMinutesAt low with
  | some ds => some ("*/" ++ (⟨ds⟩ : String) ++ " * * * *")
  | none =>
  match searchO matchEveryNHoursAt low with
  | some ds => some ("0 */" ++ (⟨ds⟩ : String) ++ " * * *")
  | none =>
  match searchO matchEveryMinuteAt low with
  | some _ => some "* * * * *"
  | none =>
  match searchO matchEveryHourAt low with
  | some _ => some "0 * * * *"
  | none =>
  match searchO matchMonthAt low with
  | some ds => some ("0 0 " ++ (⟨ds⟩ : String) ++ " * *")
  | none =>
  match searchO matchEveryDayAt low with
  | some (ds, ap) => some ("0 " ++ natRepr (parseHour ⟨ds⟩ ap) ++ " * * *")
  | none =>
  match searchO matchDayAt low with
  | some (d, ds, ap) =>
    some ("0 " ++ natRepr (parseHour ⟨ds⟩ ap) ++ " * * " ++ (DAY_MAP.lookup d).getD "0")
  | none =>
  match searchO matchWeekdayAt low with
  | some (ds, ap) => some ("0 " ++ natRepr (parseHour ⟨ds⟩ ap) ++ " * * 1-5")
  | none =>
  match rawCronGroup text.data with
  | some g => some (⟨g⟩ : String)
  | none => none

/-! ## Legacy cron-file migration (`_migrate_individual_files`)

A `jobs.json` entry / legacy file is modelled as a record of the fields the
migration reads; a field is `none` when the key is absent (JSON nulls on
string fields behave identically downstream). -/

structure JobEntry where
  id : Option String := none
  name : Option String := none
  schedule : Option String := none
  prompt : Option String := none
  enabled : Option Bool := none
  last_run : Option String := none
  created_at : Option String := none
  reply_to : Option String := none
  cron : Option String := none
  command : Option String := none
deriving DecidableEq, Repr

/-- The dict built for one legacy entry (`now` models `datetime.now(UTC)`). -/
def migrateEntry (now : String) (entry : JobEntry) : JobEntry :=
  let entryId := entry.id.getD ""
  { id := some (if pyStartswith entryId "cron_" then entryId else "cron_" ++ entryId),
    name := some (entry.name.getD "Unnamed task"),
    schedule := some (entry.cron.getD (entry.schedule.getD "")),
    prompt := some (entry.command.getD (entry.prompt.getD "")),
    enabled := some (entry.enabled.getD true),
    last_run := entry.last_run,
    created_at := some (entry.created_at.getD now),
    reply_to := some (entry.reply_to.getD "") }

/-- The migration loop: `none` files are unparseable (skipped), entries whose
id is already present are skipped (and deleted on disk), the rest are
appended. -/
def migrateLoop (existingIds : List (Option String)) (now : String) :
    List (Option JobEntry) → List JobEntry → List JobEntry
  | [], jobs => jobs
  | none :: fs, jobs => migrateLoop existingIds now fs jobs
  | some e :: fs, jobs =>
    if existingIds.contains (some (e.id.getD "")) then migrateLoop existingIds now fs jobs
    else migrateLoop existingIds now fs (jobs ++ [migrateEntry now e])

/-- `_migrate_individual_files`: resulting contents of the jobs list.  With
no legacy files the function returns before touching `jobs.json`. -/
def migrateIndividualFiles (jobs : List JobEntry) (files : List (Option JobEntry))
    (now : String) : List JobEntry :=
  if files.isEmpty then jobs
  else migrateLoop (jobs.map (·.id)) now files jobs

/-! ## Heartbeat beat (`grip/heartbeat/service.py`) -/

structure EngineResult where
  response : String
  iterations : Nat
  total_tokens : Nat
deriving DecidableEq, Repr

structure OutboundMessage where
  channel : String
  chat_id : String
  text : String
deriving DecidableEq, Repr

/-- The environment one `_beat` call observes: the contents of
`HEARTBEAT.md` (`none` = missing file), what `engine.run` would do
(`.error` = raise), whether a bus is attached, and `reply_to`. -/
structure BeatEnv where
  heartbeat : Option String
  engineResult : Except String EngineResult
  busAttached : Bool
  reply_to : String

/-- Observable effects of one beat: engine invocations `(prompt, session key)`
and messages handed to `bus.publish_outbound`. -/
structure BeatOutcome where
  engineCalls : List (String × String)
  published : List OutboundMessage
deriving DecidableEq, Repr

def SESSION_KEY : String := "heartbeat:periodic"

/-- Python `s.split(":", 1)`. -/
def pySplitColon1 (s : String) : List String :=
  let a := s.data.takeWhile (fun c => c != ':')
  match s.data.dropWhile (fun c => c != ':') with
  | [] => [⟨a⟩]
  | _ :: rest => [⟨a⟩, ⟨rest⟩]

/-- `_publish_result`: malformed `reply_to` (no colon) publishes nothing. -/
def publishResult (replyTo text : String) : List OutboundMessage :=
  match pySplitColon1 replyTo with
  | [channel, chatId] => [⟨channel, chatId, text⟩]
  | _ => []

/-- `_beat`: skip on missing or whitespace-only file; otherwise call the
engine with the stripped contents; publish the response (success, non-empty)
or a diagnostic (failure) when `reply_to` is truthy and a bus is attached.
The `except Exception` in the source makes the beat total. -/
def heartbeatBeat (env : BeatEnv) : BeatOutcome :=
  match env.heartbeat with
  | none => ⟨[], []⟩
  | some raw =>
    let content := pyStrip raw
    if content = "" then ⟨[], []⟩
    else
      match env.engineResult with
      | .ok result =>
        ⟨[(content, SESSION_KEY)],
         if env.reply_to != "" && env.busAttached && result.response != "" then
           publishResult env.reply_to result.response
         else []⟩
      | .error exc =>
        ⟨[(content, SESSION_KEY)],
         if env.reply_to != "" && env.busAttached then
           publishResult env.reply_to ("Heartbeat run failed: " ++ exc)
         else []⟩

/-! ## Workflow model (`grip/workflow/models.py`) -/

structure StepDef where
  name : String
  prompt : String
  profile : String := "default"
  depends_on : List String := []
  timeout_seconds : Int := 300
deriving DecidableEq, Repr

structure WorkflowDef where
  name : String
  description : String := ""
  steps : List StepDef := []
deriving DecidableEq, Repr

/-! Python dicts with string keys, as insertion-ordered association lists
with unique keys. -/

def dget (d : List (String × α)) (k : String) : Option α :=
  (d.find? (fun p => p.1 == k)).map (·.2)

def dset (d : List (String × α)) (k : String) (v : α) : List (String × α) :=
  if (d.find? (fun p => p.1 == k)).isSome then
    d.map (fun p => if p.1 == k then (p.1, v) else p)
  else d ++ [(k, v)]

def dmod (d : List (String × α)) (k : String) (f : α → α) : List (String × α) :=
  d.map (fun p => if p.1 == k then (p.1, f p.2) else p)

/-- `{s.name: v for s in steps}`. -/
def initDict (steps : List StepDef) (v : α) : List (String × α) :=
  steps.foldl (fun d s => dset d s.name v) []

/-- The edge-insertion loop of `_build_graph` for one step:
`adj[dep].append(step.name)` raises `KeyError` when `dep` is not a key;
`in_degree[step.name] += 1` always finds its key (inserted by `initDict`). -/
def addStepEdges (st : List (String × List String) × List (String × Int)) (s : StepDef) :
    Except String (List (String × List String) × List (String × Int)) :=
  s.depends_on.foldlM
    (fun acc dep =>
      match dget acc.1 dep with
      | none => .error ("KeyError: " ++ dep)
      | some lst => .ok (dset acc.1 dep (lst ++ [s.name]), dmod acc.2 s.name (· + 1)))
    st

/-- `_build_graph`. -/
def buildGraph (steps : List StepDef) :
    Except String (List (String × List String) × List (String × Int)) :=
  steps.foldlM addStepEdges (initDict steps [], initDict steps 0)

/-- Python string comparison (lexicographic by code point), as used by
`sorted(queue)`; `strLe` is a total, transitive and antisymmetric order, so
the sorted permutation of any list of strings is unique and every correct
sort (here `List.insertionSort`) computes exactly `sorted`. -/
def leChars : List Char → List Char → Bool
  | [], _ => true
  | _ :: _, [] => false
  | a :: as, b :: bs => if a < b then true else if b < a then false else leChars as bs

def strLe (a b : String) : Bool := leChars a.data b.data

/-- `strLe` as a relation, for `List.insertionSort`. -/
def strLeP (a b : String) : Prop := strLe a b = true

instance : DecidableRel strLeP := fun a b => instDecidableEqBool (strLe a b) true

/-- The key list of a dict. -/
def keysOf (d : List (String × α)) : List String := d.map (·.1)

/-- `in_degree[neighbor] -= 1; if in_degree[neighbor] == 0: queue.append(...)`. -/
def decTarget (st : List (String × Int) × List String) (nb : String) :
    List (String × Int) × List String :=
  let deg2 := dmod st.1 nb (· - 1)
  if dget deg2 nb = some 0 then (deg2, st.2 ++ [nb]) else (deg2, st.2)

/-- Process one node of a layer.  A queue element is always a key of `adj`
(initial queue elements are dict keys and appended ones are step names), so
the `KeyError` branch of `adj[node]` is unreachable and modelled by `[]`. -/
def processNode (adj : List (String × List String))
    (st : List (String × Int) × List String) (node : String) :
    List (String × Int) × List String :=
  ((dget adj node).getD []).foldl decTarget st

/-- The `while queue:` loop of `get_execution_order`.  The fuel
`steps.length + 1` strictly dominates the iteration count: every layer is a
non-empty set of fresh step names (see `kahnLoopInv`), so the zero-fuel
branch is unreachable from `getExecutionOrder`. -/
def kahnLoop (adj : List (String × List String)) :
    Nat → List (String × Int) → List String → List (List String)
  | 0, _, _ => []
  | _, _, [] => []
  | fuel + 1, deg, q =>
    let layer := List.insertionSort strLeP q
    let st := layer.foldl (processNode adj) (deg, [])
    layer :: kahnLoop adj fuel st.1 st.2

/-- `get_execution_order`. -/
def getExecutionOrder (wf : WorkflowDef) : Except String (List (List String)) :=
  match buildGraph wf.steps with
  | .error e => .error e
  | .ok (adj, deg) =>
    let queue0 := (deg.filter (fun p => p.2 == 0)).map (·.1)
    .ok (kahnLoop adj (wf.steps.length + 1) deg queue0)

/-- `^[\w-]+$` via `re.match` (ASCII `\w`; `$` also accepts one trailing
newline; the maximal word-char run is the only candidate match). -/
def stepNameOk (s : String) : Bool :=
  let p := fun c => isWordChar c || c = '-'
  !(s.data.takeWhile p).isEmpty &&
    ((s.data.dropWhile p).isEmpty || s.data.dropWhile p = ['\n'])

/-- The three per-step checks of `validate`, in source order. -/
def perStepErrors (s : StepDef) : List String :=
  (if s.name == "" || !stepNameOk s.name then
    ["Step name \x27" ++ s.name ++
     "\x27 is invalid (must be non-empty, only alphanumeric/underscore/hyphen)"]
   else []) ++
  (if s.prompt == "" || pyStrip s.prompt == "" then
    ["Step \x27" ++ s.name ++ "\x27 has an empty prompt"]
   else []) ++
  (if s.timeout_seconds < 1 then
    ["Step \x27" ++ s.name ++ "\x27 has invalid timeout (" ++
     intRepr s.timeout_seconds ++ "s); must be >= 1"]
   else [])

/-- The unknown-dependency errors of `validate`. -/
def unknownDepErrors (names : List String) (steps : List StepDef) : List String :=
  steps.flatMap (fun s =>
    s.depends_on.filterMap (fun dep =>
      if names.contains dep then none
      else some ("Step \x27" ++ s.name ++ "\x27 depends on unknown step \x27" ++ dep ++ "\x27")))

/-- Every `validate` error produced before the cycle check, in source order. -/
def preErrors (wf : WorkflowDef) : List String :=
  let nameErrs :=
    if wf.name == "" || pyStrip wf.name == "" then ["Workflow name cannot be empty"] else []
  if wf.steps.isEmpty then nameErrs ++ ["Workflow must have at least one step"]
  else
    let names := wf.steps.map (·.name)
    nameErrs ++ wf.steps.flatMap perStepErrors ++
      (if names.dedup.length ≠ wf.steps.length then ["Duplicate step names found"] else []) ++
      unknownDepErrors names wf.steps

/-- `validate` (an `.error` result models an uncaught Python exception from
`get_execution_order`; it never occurs, see `validate_total`). -/
def validate (wf : WorkflowDef) : Except String (List String) :=
  if wf.steps.isEmpty then .ok (preErrors wf)
  else if preErrors wf = [] then
    match getExecutionOrder wf with
    | .error e => .error e
    | .ok layers =>
      if (layers.map List.length).sum ≠ wf.steps.length then
        .ok ["Circular dependency detected in workflow steps"]
      else .ok []
  else .ok (preErrors wf)

/-- One dependency edge: `b` depends on `a`. -/
def DepEdge (wf : WorkflowDef) (a b : String) : Prop :=
  ∃ s ∈ wf.steps, s.name = b ∧ a ∈ s.depends_on

/-- The dependency graph has a (non-trivial) cycle. -/
def HasDepCycle (wf : WorkflowDef) : Prop :=
  ∃ a, Relation.TransGen (DepEdge wf) a a

/-! Counting machinery used by the Kahn-loop invariant. -/

/-- All dependency edges `(dep, step.name)`, with multiplicity, in
insertion order. -/
def edgesOf (steps : List StepDef) : List (String × String) :=
  steps.flatMap (fun s => s.depends_on.map (fun d => (d, s.name)))

def cntOcc (l : List String) (n : String) : Nat := (l.filter (fun x => x == n)).length

/-- Initial in-degree of `n`: number of edges into `n`. -/
def indeg0 (steps : List StepDef) (n : String) : Nat :=
  ((edgesOf steps).filter (fun e => e.2 == n)).length

/-- Number of edges into `n` whose source lies in `D`. -/
def edgesFrom (steps : List StepDef) (D : List String) (n : String) : Nat :=
  ((edgesOf steps).filter (fun e => D.contains e.1 && e.2 == n)).length

/-- The in-degree counter value after all of `D` has been processed. -/
def baseDeg (steps : List StepDef) (D : List String) (n : String) : Int :=
  (indeg0 steps n : Int) - (edgesFrom steps D n : Int)

/-! # Theorems -/

/-! ## C1: the shell filter on the spec's explicit accept/reject lists -/

/-- C1.  The shell safety filter rejects each of `rm -r -f /`,
`rm --recursive --force /`, `python3 -c "import os; os.system('rm -rf /')"`,
`sudo rm -rf /`, `echo ok; rm -rf /`, `/usr/bin/rm -rf /` (returns a reason),
and accepts `rm -rf ./build`, `ls -la /tmp`, `python3 -m pytest tests/`
(returns none). -/
theorem shell_filter_spec_cases :
    isDangerous "rm -r -f /" ≠ none ∧
    isDangerous "rm --recursive --force /" ≠ none ∧
    isDangerous "python3 -c \"import os; os.system(\x27rm -rf /\x27)\"" ≠ none ∧
    isDangerous "sudo rm -rf /" ≠ none ∧
    isDangerous "echo ok; rm -rf /" ≠ none ∧
    isDangerous "/usr/bin/rm -rf /" ≠ none ∧
    isDangerous "rm -rf ./build" = none ∧
    isDangerous "ls -la /tmp" = none ∧
    isDangerous "python3 -m pytest tests/" = none := by
  decide

/-! ## C2: determinism and sub-command monotonicity of the filter -/

/-- C2 counterexample.  The chain `chmod +x / ; ls` is judged safe although
its sub-command `chmod +x /` alone is rejected (the layer-4 regex
`\bchmod\s+.*\s+/\s*$` is anchored at end-of-string and only sees the whole
command), so "a chain is safe iff every sub-command is safe" fails. -/
theorem shell_filter_chain_iff_counterexample :
    ¬ (isDangerous "chmod +x / ; ls" = none ↔
        ∀ sub ∈ splitShellCommands "chmod +x / ; ls", isDangerous sub = none) := by
  decide

/-- C2 (amended).  The filter is deterministic, and a (possibly chained)
command is safe iff every sub-command passes the per-sub-command structural
layers (blocked bases, `rm` check, interpreter check) and the whole original
string passes the layer-4 regex fallback; the fallback runs on the full
string only, so safety is not equivalent to each sub-command being
individually safe. -/
theorem shell_filter_deterministic_and_chain_iff :
    (∀ a b : String, a = b → isDangerous a = isDangerous b) ∧
    ∀ c : String,
      (isDangerous c = none ↔
        ((∀ sub ∈ splitShellCommands c, checkSubWith (isDangerousFuel 2) sub = none) ∧
          regexScan REGEX_DENY c = none)) := by
  refine ⟨fun a b h => by rw [h], fun c => ?_⟩
  show (match (splitShellCommands c).findSome? (checkSubWith (isDangerousFuel 2)) with
        | some r => some r
        | none =>
          match regexScan REGEX_DENY c with
          | some src => some ("Blocked: matches pattern \x27" ++ src ++ "\x27")
          | none => none) = none ↔ _
  rcases h1 : (splitShellCommands c).findSome? (checkSubWith (isDangerousFuel 2)) with _ | r
  · rcases h2 : regexScan REGEX_DENY c with _ | src
    · simpa using List.findSome?_eq_none_iff.mp h1
    · simp
  · simp only [Option.some.injEq, reduceCtorEq, false_iff, not_and]
    intro hall
    obtain ⟨x, hx, hfx⟩ := List.exists_of_findSome?_eq_some h1
    rw [hall x hx] at hfx
    exact absurd hfx (by simp)

/-- Witness for the amended C2 theorem at concrete inputs. -/
theorem shell_filter_deterministic_and_chain_iff_witness :
    isDangerous "ls" = isDangerous "ls" ∧
    ((∀ sub ∈ splitShellCommands "ls -la /tmp; pwd",
        checkSubWith (isDangerousFuel 2) sub = none) ∧
      regexScan REGEX_DENY "ls -la /tmp; pwd" = none) :=
  ⟨shell_filter_deterministic_and_chain_iff.1 "ls" "ls" rfl,
   (shell_filter_deterministic_and_chain_iff.2 "ls -la /tmp; pwd").mp (by decide)⟩

/-! ## C3: the parsed-rm layer rejects the described flag/target combinations -/

theorem find?_isSome_of_mem {l : List α} {p : α → Bool} {x : α}
    (hx : x ∈ l) (hpx : p x = true) : (l.find? p).isSome = true := by
  induction l with
  | nil => cases hx
  | cons a t ih =>
    rcases List.mem_cons.mp hx with h | h
    · subst h; simp [List.find?, hpx]
    · cases hpa : p a <;> simp [List.find?, hpa, ih h]

theorem dangerousMatch_isSome {n : String} (h : n ∈ DANGEROUS_RM_TARGETS) :
    (dangerousMatch n).isSome = true := by
  unfold dangerousMatch
  exact find?_isSome_of_mem h (by simp)

theorem checkRmTargets_rejects (hasF : Bool) (targets : List String)
    (hx : ∃ t ∈ targets,
      normTarget t = "/" ∨ (hasF = true ∧ normTarget t ∈ DANGEROUS_RM_TARGETS)) :
    checkRmTargets true hasF targets ≠ none := by
  induction targets with
  | nil => obtain ⟨t, ht, _⟩ := hx; cases ht
  | cons t rest ih =>
    obtain ⟨w, hw, hcase⟩ := hx
    simp only [checkRmTargets, Bool.true_and]
    by_cases h1 : normTarget t = "/"
    · simp [h1]
    · rw [if_neg (by simpa using h1)]
      rcases List.mem_cons.mp hw with rfl | hwrest
      · rcases hcase with h | ⟨hf, hmem⟩
        · exact absurd h h1
        · subst hf
          simp only [if_true]
          obtain ⟨v, hv⟩ := Option.isSome_iff_exists.mp (dangerousMatch_isSome hmem)
          simp [hv]
      · have hrest : checkRmTargets true hasF rest ≠ none := ih ⟨w, hwrest, hcase⟩
        cases hasF
        · simpa using hrest
        · simp only [if_true]
          cases hdm : dangerousMatch (normTarget t)
          · simpa using hrest
          · simp

theorem checkRm_rejects (tokens : List String)
    (hcond :
      ((extractRmFlags tokens).contains '!' = true ∧
        (extractRmFlags tokens).contains 'r' = true) ∨
      ((extractRmFlags tokens).contains 'r' = true ∧
        ∃ t ∈ extractRmTargets tokens, normTarget t = "/") ∨
      ((extractRmFlags tokens).contains 'r' = true ∧
        (extractRmFlags tokens).contains 'f' = true ∧
        ∃ t ∈ extractRmTargets tokens, normTarget t ∈ DANGEROUS_RM_TARGETS)) :
    checkRm tokens ≠ none := by
  simp only [checkRm]
  split
  · simp
  · rename_i hbang
    rcases hcond with ⟨h1, h2⟩ | ⟨hr, t, ht, hn⟩ | ⟨hr, hf, t, ht, hn⟩
    · exact absurd (by rw [h1, h2]; rfl) hbang
    · rw [hr]
      exact checkRmTargets_rejects _ _ ⟨t, ht, Or.inl hn⟩
    · rw [hr, hf]
      exact checkRmTargets_rejects _ _ ⟨t, ht, Or.inr ⟨rfl, hn⟩⟩

theorem checkSubWith_rm_eq (recur : String → Option String) (sub : String)
    (t0 : String) (rest : List String)
    (htok : stripSudo (tokenizeCmd sub) = t0 :: rest)
    (hbase : baseName t0 = "rm") :
    checkSubWith recur sub = checkRm (t0 :: rest) := by
  have hne : (tokenizeCmd sub).isEmpty = false := by
    cases h : tokenizeCmd sub
    · rw [h] at htok; simp [stripSudo] at htok
    · simp
  simp only [checkSubWith, hne, htok, hbase]
  simp [BLOCKED_COMMANDS, INTERPRETER_COMMANDS]

theorem findSome?_ne_none_of_mem {l : List α} {f : α → Option β} {x : α}
    (hx : x ∈ l) (hfx : f x ≠ none) : l.findSome? f ≠ none := fun h =>
  hfx (List.findSome?_eq_none_iff.mp h x hx)

/-- C3.  For every tokenised sub-command of a command whose base command is
`rm`, the filter rejects the whole command whenever, over the normalised
flags and targets: (a) `!` (no-preserve-root) and `r` are both present, or
(b) `r` is present and some target normalises to `/`, or (c) `r` and `f`
are present and some target normalises to a listed critical path. -/
theorem rm_danger_conditions_reject (cmd sub : String) (t0 : String) (rest : List String)
    (hsub : sub ∈ splitShellCommands cmd)
    (htok : stripSudo (tokenizeCmd sub) = t0 :: rest)
    (hbase : baseName t0 = "rm")
    (hcond :
      ((extractRmFlags (t0 :: rest)).contains '!' = true ∧
        (extractRmFlags (t0 :: rest)).contains 'r' = true) ∨
      ((extractRmFlags (t0 :: rest)).contains 'r' = true ∧
        ∃ t ∈ extractRmTargets (t0 :: rest), normTarget t = "/") ∨
      ((extractRmFlags (t0 :: rest)).contains 'r' = true ∧
        (extractRmFlags (t0 :: rest)).contains 'f' = true ∧
        ∃ t ∈ extractRmTargets (t0 :: rest), normTarget t ∈ DANGEROUS_RM_TARGETS)) :
    isDangerous cmd ≠ none := by
  have hsubne : checkSubWith (isDangerousFuel 2) sub ≠ none := by
    rw [checkSubWith_rm_eq _ _ _ _ htok hbase]
    exact checkRm_rejects _ hcond
  have hfind := findSome?_ne_none_of_mem hsub hsubne
  show (match (splitShellCommands cmd).findSome? (checkSubWith (isDangerousFuel 2)) with
        | some r => some r
        | none =>
          match regexScan REGEX_DENY cmd with
          | some src => some ("Blocked: matches pattern \x27" ++ src ++ "\x27")
          | none => none) ≠ none
  rcases h1 : (splitShellCommands cmd).findSome? (checkSubWith (isDangerousFuel 2)) with _ | r
  · exact absurd h1 hfind
  · simp

/-- Witness for C3 at `sudo rm -rf /`. -/
theorem rm_danger_conditions_reject_witness : isDangerous "sudo rm -rf /" ≠ none :=
  rm_danger_conditions_reject "sudo rm -rf /" "sudo rm -rf /" "rm" ["-rf", "/"]
    (by decide) (by decide) (by decide)
    (Or.inr (Or.inl (by decide)))

/-! ## C8: one heartbeat beat -/

theorem dropWhile_cons_head {α} {p : α → Bool} {l : List α} {c : α} {rest : List α}
    (h : l.dropWhile p = c :: rest) : p c = false ∧ c ∈ l := by
  induction l with
  | nil => simp at h
  | cons a t ih =>
    cases hpa : p a
    · rw [List.dropWhile_cons_of_neg (by simp [hpa])] at h
      cases h
      exact ⟨hpa, List.mem_cons_self _ _⟩
    · rw [List.dropWhile_cons_of_pos hpa] at h
      obtain ⟨h1, h2⟩ := ih h
      exact ⟨h1, List.mem_cons_of_mem _ h2⟩

theorem publishResult_ne_nil_iff (r t : String) :
    publishResult r t ≠ [] ↔ r.data.contains ':' = true := by
  constructor
  · intro hne
    unfold publishResult pySplitColon1 at hne
    rcases h : r.data.dropWhile (fun c => c != ':') with _ | ⟨c, rest⟩
    · rw [h] at hne
      simp at hne
    · obtain ⟨hc, hmem⟩ := dropWhile_cons_head h
      have hceq : c = ':' := by simpa using hc
      subst hceq
      simpa using hmem
  · intro hcont
    have hmem : (':' : Char) ∈ r.data := by simpa using hcont
    unfold publishResult pySplitColon1
    rcases h : r.data.dropWhile (fun c => c != ':') with _ | ⟨c, rest⟩
    · exfalso
      have hall := List.dropWhile_eq_nil_iff.mp h
      have := hall ':' hmem
      simp at this
    · simp

theorem mem_publishResult_text {m : OutboundMessage} {r t : String}
    (hm : m ∈ publishResult r t) : m.text = t := by
  unfold publishResult at hm
  cases hps : pySplitColon1 r with
  | nil => rw [hps] at hm; simp at hm
  | cons a l =>
    cases l with
    | nil => rw [hps] at hm; simp at hm
    | cons b l2 =>
      cases l2 with
      | nil =>
        rw [hps] at hm
        simp at hm
        rw [hm]
      | cons c l3 => rw [hps] at hm; simp at hm

/-- C8 counterexample.  With `HEARTBEAT.md = "ping"`, a bus attached, a
well-formed `reply_to = "telegram:1"`, and the engine succeeding with an
empty response, nothing is published — so "the response is published iff
`reply_to` is set and well-formed" fails as stated. -/
theorem heartbeat_publish_iff_counterexample :
    (heartbeatBeat ⟨some "ping", Except.ok ⟨"", 1, 0⟩, true, "telegram:1"⟩).published = [] ∧
    ("telegram:1" : String) ≠ "" ∧
    ("telegram:1" : String).data.contains ':' = true := by
  decide

/-- C8 (amended).  If `HEARTBEAT.md` is missing or strips to the empty
string, the engine is not called and nothing is published; otherwise the
engine is called exactly once with the stripped contents under session key
`"heartbeat:periodic"`, a message is published iff a bus is attached,
`reply_to` is non-empty and contains `:`, and (on engine success) the
response is non-empty; the published text is the response on success and a
`Heartbeat run failed:` diagnostic on failure.  The beat is a total
function of its environment: an engine exception is absorbed. -/
theorem heartbeat_beat_characterization (env : BeatEnv) :
    ((env.heartbeat = none ∨ pyStrip (env.heartbeat.getD "") = "") →
      heartbeatBeat env = ⟨[], []⟩) ∧
    (∀ raw, env.heartbeat = some raw → pyStrip raw ≠ "" →
      (heartbeatBeat env).engineCalls = [(pyStrip raw, "heartbeat:periodic")] ∧
      ((heartbeatBeat env).published ≠ [] ↔
        (env.reply_to ≠ "" ∧ env.reply_to.data.contains ':' = true ∧
          env.busAttached = true ∧
          (∀ r, env.engineResult = Except.ok r → r.response ≠ ""))) ∧
      (∀ m ∈ (heartbeatBeat env).published,
        m.text = (match env.engineResult with
          | Except.ok r => r.response
          | Except.error e => "Heartbeat run failed: " ++ e))) := by
  obtain ⟨hb, er, bus, rt⟩ := env
  constructor
  · rintro (h | h)
    · subst h; rfl
    · cases hb with
      | none => rfl
      | some raw =>
        simp only [Option.getD_some] at h
        simp [heartbeatBeat, h]
  · rintro raw rfl hne
    cases er with
    | ok r =>
      refine ⟨by simp [heartbeatBeat, hne, SESSION_KEY], ?_, ?_⟩
      · simp only [heartbeatBeat, if_neg hne, ne_eq, ite_eq_right_iff,
          Classical.not_imp, Bool.and_eq_true, bne_iff_ne, Except.ok.injEq,
          forall_eq]
        constructor
        · rintro ⟨⟨⟨hrt, hbus⟩, hresp⟩, hpub⟩
          exact ⟨hrt, (publishResult_ne_nil_iff rt r.response).mp hpub, hbus,
            fun r1 hr1 => hr1 ▸ hresp⟩
        · rintro ⟨hrt, hcont, hbus, hresp⟩
          exact ⟨⟨⟨hrt, hbus⟩, hresp r rfl⟩,
            (publishResult_ne_nil_iff rt r.response).mpr hcont⟩
      · intro m hm
        simp only [heartbeatBeat, if_neg hne] at hm
        split at hm
        · exact mem_publishResult_text hm
        · cases hm
    | error e =>
      refine ⟨by simp [heartbeatBeat, hne, SESSION_KEY], ?_, ?_⟩
      · simp only [heartbeatBeat, if_neg hne, ne_eq, ite_eq_right_iff,
          Classical.not_imp, Bool.and_eq_true, bne_iff_ne, reduceCtorEq,
          false_implies, forall_const, and_true]
        constructor
        · rintro ⟨⟨hrt, hbus⟩, hpub⟩
          exact ⟨hrt, (publishResult_ne_nil_iff rt _).mp hpub, hbus, fun _ => trivial⟩
        · rintro ⟨hrt, hcont, hbus, -⟩
          exact ⟨⟨hrt, hbus⟩, (publishResult_ne_nil_iff rt _).mpr hcont⟩
      · intro m hm
        simp only [heartbeatBeat, if_neg hne] at hm
        split at hm
        · exact mem_publishResult_text hm
        · cases hm

/-- Witness for the amended C8 theorem on a concrete environment. -/
theorem heartbeat_beat_characterization_witness :
    (heartbeatBeat ⟨some " check ", Except.ok ⟨"pong", 1, 0⟩, true, "telegram:7"⟩).engineCalls
      = [("check", "heartbeat:periodic")] :=
  ((heartbeat_beat_characterization
      ⟨some " check ", Except.ok ⟨"pong", 1, 0⟩, true, "telegram:7"⟩).2
    " check " rfl (by decide)).1

/-! ## C6: the cron-phrase parser agrees with its table -/

/-- C6.  The hour rule (12am→0, 12pm→12, H pm→H+12, H am→H), the weekday
map (Sunday=0 … Saturday=6, full and three-letter forms), the three `at H`
phrase families on their numeral ranges, the remaining table rows on
sampled arguments, and: any input on which no rule matches (and that is not
a raw 5-field cron expression) parses to `none`. -/
theorem cron_phrase_parser_table :
    (∀ s : String,
        parseHour s (some "am") = (if strToNat s = 12 then 0 else strToNat s) ∧
        parseHour s (some "pm") = (if strToNat s = 12 then 12 else strToNat s + 12) ∧
        parseHour s none = strToNat s) ∧
    (DAY_MAP.lookup "sunday" = some "0" ∧ DAY_MAP.lookup "monday" = some "1" ∧
      DAY_MAP.lookup "tuesday" = some "2" ∧ DAY_MAP.lookup "wednesday" = some "3" ∧
      DAY_MAP.lookup "thursday" = some "4" ∧ DAY_MAP.lookup "friday" = some "5" ∧
      DAY_MAP.lookup "saturday" = some "6" ∧ DAY_MAP.lookup "sun" = some "0" ∧
      DAY_MAP.lookup "mon" = some "1" ∧ DAY_MAP.lookup "tue" = some "2" ∧
      DAY_MAP.lookup "wed" = some "3" ∧ DAY_MAP.lookup "thu" = some "4" ∧
      DAY_MAP.lookup "fri" = some "5" ∧ DAY_MAP.lookup "sat" = some "6") ∧
    (((List.range 12).all fun i =>
        parse_natural_language ("every day at " ++ natRepr (i + 1) ++ "am") ==
          some ("0 " ++ natRepr (if i + 1 = 12 then 0 else i + 1) ++ " * * *")) = true) ∧
    (((List.range 12).all fun i =>
        parse_natural_language ("every day at " ++ natRepr (i + 1) ++ "pm") ==
          some ("0 " ++ natRepr (if i + 1 = 12 then 12 else i + 13) ++ " * * *")) = true) ∧
    (((List.range 24).all fun h =>
        parse_natural_language ("every day at " ++ natRepr h) ==
          some ("0 " ++ natRepr h ++ " * * *")) = true) ∧
    ((DAY_MAP.all fun p =>
        parse_natural_language ("every " ++ p.1 ++ " at 3pm") ==
          some ("0 15 * * " ++ p.2)) = true) ∧
    ((DAY_MAP.all fun p =>
        parse_natural_language ("every " ++ p.1 ++ " at 11") ==
          some ("0 11 * * " ++ p.2)) = true) ∧
    (((List.range 12).all fun i =>
        parse_natural_language ("every weekday at " ++ natRepr (i + 1) ++ "am") ==
          some ("0 " ++ natRepr (if i + 1 = 12 then 0 else i + 1) ++ " * * 1-5")) = true) ∧
    (((List.range 24).all fun h =>
        parse_natural_language ("every weekday at " ++ natRepr h) ==
          some ("0 " ++ natRepr h ++ " * * 1-5")) = true) ∧
    (([1, 5, 15, 59, 120].all fun n =>
        parse_natural_language ("every " ++ natRepr n ++ " minutes") ==
          some ("*/" ++ natRepr n ++ " * * * *")) = true) ∧
    (([1, 2, 12, 48].all fun n =>
        parse_natural_language ("every " ++ natRepr n ++ " hours") ==
          some ("0 */" ++ natRepr n ++ " * * *")) = true) ∧
    parse_natural_language "every minute" = some "* * * * *" ∧
    parse_natural_language "every hour" = some "0 * * * *" ∧
    (((List.range 31).all fun i =>
        parse_natural_language ("every month on the " ++ natRepr (i + 1)) ==
          some ("0 0 " ++ natRepr (i + 1) ++ " * *")) = true) ∧
    parse_natural_language "every month on the 1st" = some "0 0 1 * *" ∧
    ∀ s : String,
      searchO matchEveryNMinutesAt (pyLower (pyStrip s)).data = none →
      searchO matchEveryNHoursAt (pyLower (pyStrip s)).data = none →
      searchO matchEveryMinuteAt (pyLower (pyStrip s)).data = none →
      searchO matchEveryHourAt (pyLower (pyStrip s)).data = none →
      searchO matchMonthAt (pyLower (pyStrip s)).data = none →
      searchO matchEveryDayAt (pyLower (pyStrip s)).data = none →
      searchO matchDayAt (pyLower (pyStrip s)).data = none →
      searchO matchWeekdayAt (pyLower (pyStrip s)).data = none →
      rawCronGroup (pyStrip s).data = none →
      parse_natural_language s = none := by
  refine ⟨?_, by decide, by decide, by decide, by decide, by decide, by decide,
    by decide, by decide, by decide, by decide, by decide, by decide, by decide,
    by decide, ?_⟩
  · intro s
    unfold parseHour
    by_cases h : strToNat s = 12 <;> simp [h]
  · intro s h1 h2 h3 h4 h5 h6 h7 h8 hraw
    simp only [parse_natural_language, h1, h2, h3, h4, h5, h6, h7, h8, hraw]

/-- Witness for the no-rule-matches conjunct of the C6 theorem. -/
theorem cron_phrase_parser_table_witness :
    parse_natural_language "launch the missiles" = none :=
  cron_phrase_parser_table.2.2.2.2.2.2.2.2.2.2.2.2.2.2.2 "launch the missiles"
    (by decide) (by decide) (by decide) (by decide) (by decide) (by decide)
    (by decide) (by decide) (by decide)

/-! ## C7: parse-and-reparse stability of the cron-phrase parser -/

theorem isDigitC_toNat {c : Char} (h : isDigitC c = true) :
    48 ≤ c.toNat ∧ c.toNat ≤ 57 := by
  simp only [isDigitC, Bool.and_eq_true, decide_eq_true_eq, Char.le_def,
    UInt32.le_def, BitVec.le_def] at h
  simp only [Char.toNat, UInt32.toNat]
  exact h

theorem pyIsSpace_cases {c : Char} (h : pyIsSpace c = true) :
    c = ' ' ∨ c = '\t' ∨ c = '\n' ∨ c = '\x0d' ∨ c = '\x0b' ∨ c = '\x0c' := by
  simp only [pyIsSpace, Bool.or_eq_true, decide_eq_true_eq] at h
  tauto

theorem cronFieldChar_cases {c : Char} (h : cronFieldChar c = true) :
    c = '*' ∨ isDigitC c = true ∨ c = '/' ∨ c = ',' ∨ c = '-' := by
  simp only [cronFieldChar, Bool.or_eq_true, decide_eq_true_eq] at h
  tauto

/-- Characters of a cron output (field characters and whitespace) are fixed
by `Char.toLower`, are not `e`, and field characters are not whitespace. -/
theorem cronChar_toLower {c : Char} (h : cronFieldChar c = true ∨ pyIsSpace c = true) :
    c.toLower = c := by
  unfold Char.toLower
  rw [if_neg]
  rcases h with h | h
  · rcases cronFieldChar_cases h with rfl | hd | rfl | rfl | rfl
    · decide
    · obtain ⟨h1, h2⟩ := isDigitC_toNat hd
      omega
    · decide
    · decide
    · decide
  · rcases pyIsSpace_cases h with rfl | rfl | rfl | rfl | rfl | rfl <;> decide

theorem cronChar_ne_e {c : Char} (h : cronFieldChar c = true ∨ pyIsSpace c = true) :
    c ≠ 'e' := by
  rintro rfl
  rcases h with h | h
  · exact absurd h (by decide)
  · exact absurd h (by decide)

theorem cronFieldChar_not_space {c : Char} (h : cronFieldChar c = true) :
    pyIsSpace c = false := by
  cases hs : pyIsSpace c
  · rfl
  · rcases pyIsSpace_cases hs with rfl | rfl | rfl | rfl | rfl | rfl <;>
      exact absurd h (by decide)

/-- `searchO m` fails when the position matcher fails at every suffix. -/
theorem searchO_none_of {α} {m : List Char → Option α} (hnil : m [] = none) :
    ∀ l : List Char, (∀ c s, c ∈ l → m (c :: s) = none) → searchO m l = none
  | [], _ => by simpa [searchO] using hnil
  | c :: rest, hcons => by
    simp only [searchO]
    rw [hcons c rest (List.mem_cons_self _ _)]
    exact searchO_none_of hnil rest fun d s hd => hcons d s (List.mem_cons_of_mem _ hd)

theorem expectLit_every_head_none {α} {k : List Char → Option α} {c : Char} {s : List Char}
    (hc : c ≠ 'e') : (expectLit "every".data (c :: s)).bind k = none := by
  have : expectLit "every".data (c :: s) = none := by
    show expectLit ('e' :: "very".data) (c :: s) = none
    simp [expectLit, fun h => hc h]
  rw [this]
  rfl

/-- A list without `e` defeats every phrase matcher (they all open with the
literal `every`). -/
theorem searchO_minutes_none {l : List Char} (h : ('e' : Char) ∉ l) :
    searchO matchEveryNMinutesAt l = none :=
  searchO_none_of rfl _ fun c s hc =>
    expectLit_every_head_none fun hce => h (hce ▸ hc)

theorem searchO_hours_none {l : List Char} (h : ('e' : Char) ∉ l) :
    searchO matchEveryNHoursAt l = none :=
  searchO_none_of rfl _ fun c s hc =>
    expectLit_every_head_none fun hce => h (hce ▸ hc)

theorem searchO_minute_none {l : List Char} (h : ('e' : Char) ∉ l) :
    searchO matchEveryMinuteAt l = none :=
  searchO_none_of rfl _ fun c s hc =>
    expectLit_every_head_none fun hce => h (hce ▸ hc)

theorem searchO_hour_none {l : List Char} (h : ('e' : Char) ∉ l) :
    searchO matchEveryHourAt l = none :=
  searchO_none_of rfl _ fun c s hc =>
    expectLit_every_head_none fun hce => h (hce ▸ hc)

theorem searchO_month_none {l : List Char} (h : ('e' : Char) ∉ l) :
    searchO matchMonthAt l = none :=
  searchO_none_of rfl _ fun c s hc =>
    expectLit_every_head_none fun hce => h (hce ▸ hc)

theorem searchO_day_phrase_none {l : List Char} (h : ('e' : Char) ∉ l) :
    searchO matchEveryDayAt l = none :=
  searchO_none_of rfl _ fun c s hc =>
    expectLit_every_head_none fun hce => h (hce ▸ hc)

theorem searchO_weekday_table_none {l : List Char} (h : ('e' : Char) ∉ l) :
    searchO matchDayAt l = none :=
  searchO_none_of rfl _ fun c s hc =>
    expectLit_every_head_none fun hce => h (hce ▸ hc)

theorem searchO_weekday_none {l : List Char} (h : ('e' : Char) ∉ l) :
    searchO matchWeekdayAt l = none :=
  searchO_none_of rfl _ fun c s hc =>
    expectLit_every_head_none fun hce => h (hce ▸ hc)

theorem takeWhile_all_append {α} {p : α → Bool} {l r : List α}
    (h : ∀ c ∈ l, p c = true) : (l ++ r).takeWhile p = l ++ r.takeWhile p := by
  induction l with
  | nil => simp
  | cons a t ih =>
    have ha := h a (List.mem_cons_self _ _)
    simp only [List.cons_append, List.takeWhile_cons, ha, if_true]
    rw [ih fun c hc => h c (List.mem_cons_of_mem _ hc)]

theorem dropWhile_all_append {α} {p : α → Bool} {l r : List α}
    (h : ∀ c ∈ l, p c = true) : (l ++ r).dropWhile p = r.dropWhile p := by
  induction l with
  | nil => simp
  | cons a t ih =>
    have ha := h a (List.mem_cons_self _ _)
    simp only [List.cons_append, List.dropWhile_cons, ha, if_true]
    exact ih fun c hc => h c (List.mem_cons_of_mem _ hc)

/-- `takeCronField` consumes exactly a non-empty all-field-character block
followed by a space. -/
theorem takeCronField_block {f r : List Char} (hne : f ≠ [])
    (hall : ∀ c ∈ f, cronFieldChar c = true) :
    takeCronField (f ++ ' ' :: r) = some (' ' :: r) := by
  unfold takeCronField
  rw [takeWhile_all_append hall, dropWhile_all_append hall]
  have : List.takeWhile cronFieldChar (' ' :: r) = [] := by
    rw [List.takeWhile_cons_of_neg]
    decide
  rw [this, List.dropWhile_cons_of_neg (by decide)]
  rw [if_neg]
  simp [hne]

theorem takeCronField_last {f : List Char} (hne : f ≠ [])
    (hall : ∀ c ∈ f, cronFieldChar c = true) :
    takeCronField f = some [] := by
  unfold takeCronField
  have h1 : List.takeWhile cronFieldChar f = f := by
    have := takeWhile_all_append (r := ([] : List Char)) hall
    simpa using this
  have h2 : List.dropWhile cronFieldChar f = [] := by
    have := dropWhile_all_append (r := ([] : List Char)) hall
    simpa using this
  rw [h1, h2, if_neg (by simpa [List.isEmpty_iff] using hne)]

theorem skipWs1_space {r : List Char}
    (h : ∀ c, r.head? = some c → pyIsSpace c = false) :
    skipWs1 (' ' :: r) = some r := by
  simp only [skipWs1]
  rw [if_pos (by decide)]
  cases r with
  | nil => rfl
  | cons c t =>
    rw [List.dropWhile_cons_of_neg]
    simp [h c rfl]

/-- A single-space five-field string is accepted verbatim by the raw-cron
rule. -/
theorem rawCronGroup_fields (f1 f2 f3 f4 f5 : List Char)
    (h1 : f1 ≠ [] ∧ ∀ c ∈ f1, cronFieldChar c = true)
    (h2 : f2 ≠ [] ∧ ∀ c ∈ f2, cronFieldChar c = true)
    (h3 : f3 ≠ [] ∧ ∀ c ∈ f3, cronFieldChar c = true)
    (h4 : f4 ≠ [] ∧ ∀ c ∈ f4, cronFieldChar c = true)
    (h5 : f5 ≠ [] ∧ ∀ c ∈ f5, cronFieldChar c = true) :
    rawCronGroup (f1 ++ (' ' :: (f2 ++ (' ' :: (f3 ++ (' ' :: (f4 ++ (' ' :: f5)))))))) =
      some (f1 ++ (' ' :: (f2 ++ (' ' :: (f3 ++ (' ' :: (f4 ++ (' ' :: f5)))))))) := by
  have hhead : ∀ (f rest : List Char), f ≠ [] → (∀ c ∈ f, cronFieldChar c = true) →
      ∀ c, (f ++ rest).head? = some c → pyIsSpace c = false := by
    intro f rest hne hall c hc
    cases f with
    | nil => exact absurd rfl hne
    | cons a t =>
      simp only [List.cons_append, List.head?_cons, Option.some.injEq] at hc
      subst hc
      exact cronFieldChar_not_space (hall a (List.mem_cons_self _ _))
  have hf5 : ∀ c, f5.head? = some c → pyIsSpace c = false := by
    intro c hc
    cases f5 with
    | nil => exact absurd rfl h5.1
    | cons a t =>
      simp only [List.head?_cons, Option.some.injEq] at hc
      subst hc
      exact cronFieldChar_not_space (h5.2 a (List.mem_cons_self _ _))
  simp only [rawCronGroup, Option.bind_eq_bind,
    takeCronField_block h1.1 h1.2, Option.some_bind,
    skipWs1_space (hhead f2 _ h2.1 h2.2),
    takeCronField_block h2.1 h2.2,
    skipWs1_space (hhead f3 _ h3.1 h3.2),
    takeCronField_block h3.1 h3.2,
    skipWs1_space (hhead f4 _ h4.1 h4.2),
    takeCronField_block h4.1 h4.2,
    skipWs1_space hf5,
    takeCronField_last h5.1 h5.2]

/-- `pyStripL` fixes a list whose first and last characters are not
whitespace. -/
theorem pyStripL_eq_self {l : List Char}
    (hh : ∀ c, l.head? = some c → pyIsSpace c = false)
    (hl : ∀ c, l.getLast? = some c → pyIsSpace c = false) :
    pyStripL l = l := by
  unfold pyStripL
  have h1 : l.dropWhile pyIsSpace = l := by
    cases l with
    | nil => rfl
    | cons a t => rw [List.dropWhile_cons_of_neg (by simp [hh a rfl])]
  rw [h1]
  have h2 : l.reverse.dropWhile pyIsSpace = l.reverse := by
    cases hr : l.reverse with
    | nil => rfl
    | cons a t =>
      rw [List.dropWhile_cons_of_neg]
      have : l.getLast? = some a := by
        rw [← List.head?_reverse, hr, List.head?_cons]
      simp [hl a this]
  rw [h2, List.reverse_reverse]

theorem getLastQ_append_right {A B : List Char} (hB : B ≠ []) :
    (A ++ B).getLast? = B.getLast? := by
  rw [List.getLast?_append]
  cases hb : B.getLast? with
  | none =>
    have : B.getLast?.isSome := List.getLast?_isSome.mpr hB
    rw [hb] at this
    cases this
  | some v => rfl

theorem getLastQ_cons_append {a : Char} {B : List Char} (hB : B ≠ []) :
    (a :: B).getLast? = B.getLast? := getLastQ_append_right (A := [a]) hB

/-- The first character of a stripped list is not whitespace. -/
theorem pyStripL_head_not_ws {l : List Char} {c : Char}
    (h : (pyStripL l).head? = some c) : pyIsSpace c = false := by
  unfold pyStripL at h
  rw [List.head?_reverse] at h
  cases hd : List.dropWhile pyIsSpace (List.dropWhile pyIsSpace l).reverse with
  | nil => rw [hd] at h; cases h
  | cons a t =>
    rw [hd] at h
    have hw : (List.dropWhile pyIsSpace l).reverse =
        ((List.dropWhile pyIsSpace l).reverse.takeWhile pyIsSpace) ++ (a :: t) := by
      rw [← hd, List.takeWhile_append_dropWhile]
    have hrev : (List.dropWhile pyIsSpace l).reverse.getLast? = some c := by
      rw [hw, getLastQ_append_right (B := a :: t) (by simp)]
      exact h
    rw [List.getLast?_reverse] at hrev
    cases hdl : List.dropWhile pyIsSpace l with
    | nil => rw [hdl] at hrev; cases hrev
    | cons b s =>
      rw [hdl] at hrev
      simp only [List.head?_cons, Option.some.injEq] at hrev
      subst hrev
      exact (dropWhile_cons_head hdl).1

/-- The last character of a stripped list is not whitespace. -/
theorem pyStripL_getLast_not_ws {l : List Char} {c : Char}
    (h : (pyStripL l).getLast? = some c) : pyIsSpace c = false := by
  unfold pyStripL at h
  rw [List.getLast?_reverse] at h
  cases hd : List.dropWhile pyIsSpace (List.dropWhile pyIsSpace l).reverse with
  | nil => rw [hd] at h; cases h
  | cons a t =>
    rw [hd] at h
    simp only [List.head?_cons, Option.some.injEq] at h
    subst h
    exact (dropWhile_cons_head hd).1

theorem stringMk_data (s : String) : (⟨s.data⟩ : String) = s := by
  cases s
  rfl

/-- `str.strip` is idempotent. -/
theorem pyStrip_idem (s : String) : pyStrip (pyStrip s) = pyStrip s :=
  congrArg (fun l => (⟨l⟩ : String))
    (pyStripL_eq_self (fun _ h => pyStripL_head_not_ws h)
      (fun _ h => pyStripL_getLast_not_ws h))

/-- The master fixed-point lemma: any string that is five non-empty
field-character blocks separated by single spaces is parsed to itself (it
contains no letter, so every phrase rule fails, and the raw-cron rule
returns its own input). -/
theorem parse_natural_language_fixpoint (s : String) (f1 f2 f3 f4 f5 : List Char)
    (hdata : s.data = f1 ++ (' ' :: (f2 ++ (' ' :: (f3 ++ (' ' :: (f4 ++ (' ' :: f5))))))))
    (h1 : f1 ≠ [] ∧ ∀ c ∈ f1, cronFieldChar c = true)
    (h2 : f2 ≠ [] ∧ ∀ c ∈ f2, cronFieldChar c = true)
    (h3 : f3 ≠ [] ∧ ∀ c ∈ f3, cronFieldChar c = true)
    (h4 : f4 ≠ [] ∧ ∀ c ∈ f4, cronFieldChar c = true)
    (h5 : f5 ≠ [] ∧ ∀ c ∈ f5, cronFieldChar c = true) :
    parse_natural_language s = some s := by
  obtain ⟨sd⟩ := s
  replace hdata : sd = f1 ++ (' ' :: (f2 ++ (' ' :: (f3 ++ (' ' :: (f4 ++ (' ' :: f5))))))) :=
    hdata
  subst hdata
  set L := f1 ++ (' ' :: (f2 ++ (' ' :: (f3 ++ (' ' :: (f4 ++ (' ' :: f5))))))) with hL
  have hchars : ∀ c ∈ L, cronFieldChar c = true ∨ pyIsSpace c = true := by
    intro c hc
    rw [hL] at hc
    simp only [List.mem_append, List.mem_cons] at hc
    rcases hc with hc | rfl | hc | rfl | hc | rfl | hc | rfl | hc
    · exact Or.inl (h1.2 c hc)
    · exact Or.inr (by decide)
    · exact Or.inl (h2.2 c hc)
    · exact Or.inr (by decide)
    · exact Or.inl (h3.2 c hc)
    · exact Or.inr (by decide)
    · exact Or.inl (h4.2 c hc)
    · exact Or.inr (by decide)
    · exact Or.inl (h5.2 c hc)
  have hE : ('e' : Char) ∉ L := fun hmem => cronChar_ne_e (hchars _ hmem) rfl
  have hstrip : pyStrip ⟨L⟩ = ⟨L⟩ := by
    refine congrArg (fun l => (⟨l⟩ : String)) (pyStripL_eq_self ?_ ?_)
    · intro c hc
      rw [hL] at hc
      cases f1 with
      | nil => exact absurd rfl h1.1
      | cons a t =>
        simp only [List.cons_append, List.head?_cons, Option.some.injEq] at hc
        subst hc
        exact cronFieldChar_not_space (h1.2 a (List.mem_cons_self _ _))
    · intro c hc
      rw [hL] at hc
      simp only [getLastQ_append_right, getLastQ_cons_append, ne_eq,
        List.append_eq_nil, List.cons_ne_nil, not_false_eq_true, and_false,
        false_and, h5.1] at hc
      exact cronFieldChar_not_space (h5.2 c (List.mem_of_getLast?_eq_some hc))
  have hlow : pyLower ⟨L⟩ = ⟨L⟩ := by
    refine congrArg (fun l => (⟨l⟩ : String)) ?_
    show L.map Char.toLower = L
    exact (List.map_congr_left fun c hc => cronChar_toLower (hchars c hc)).trans
      (List.map_id L)
  simp only [parse_natural_language, hstrip, hlow,
    searchO_minutes_none hE, searchO_hours_none hE, searchO_minute_none hE,
    searchO_hour_none hE, searchO_month_none hE, searchO_day_phrase_none hE,
    searchO_weekday_table_none hE, searchO_weekday_none hE,
    rawCronGroup_fields f1 f2 f3 f4 f5 h1 h2 h3 h4 h5]

theorem searchO_some {α} {m : List Char → Option α} {r : α} :
    ∀ l : List Char, searchO m l = some r → ∃ s, m s = some r
  | [], h => ⟨[], h⟩
  | c :: rest, h => by
    simp only [searchO] at h
    cases hm : m (c :: rest) with
    | some x =>
      rw [hm] at h
      exact ⟨c :: rest, hm.trans h⟩
    | none =>
      rw [hm] at h
      exact searchO_some rest h

theorem takeDigits1_spec {s ds r : List Char} (h : takeDigits1 s = some (ds, r)) :
    ds ≠ [] ∧ ∀ c ∈ ds, isDigitC c = true := by
  simp only [takeDigits1] at h
  split at h
  · cases h
  · rename_i hemp
    simp only [Option.some.injEq, Prod.mk.injEq] at h
    obtain ⟨h1, h2⟩ := h
    subst h1
    exact ⟨by simpa [List.isEmpty_iff] using hemp,
      fun c hc => List.mem_takeWhile_imp hc⟩

theorem takeDigits12_spec {s ds r : List Char} (h : takeDigits12 s = some (ds, r)) :
    ds ≠ [] ∧ ∀ c ∈ ds, isDigitC c = true := by
  cases s with
  | nil => cases h
  | cons a rest =>
    by_cases ha : isDigitC a = true
    · cases rest with
      | nil =>
        simp only [takeDigits12, ha, if_true, Option.some.injEq, Prod.mk.injEq] at h
        obtain ⟨h1, -⟩ := h
        subst h1
        refine ⟨by simp, ?_⟩
        intro x hx
        rw [List.mem_singleton] at hx
        subst hx
        exact ha
      | cons d rest2 =>
        by_cases hd : isDigitC d = true
        · simp only [takeDigits12, ha, hd, if_true, Option.some.injEq, Prod.mk.injEq] at h
          obtain ⟨h1, -⟩ := h
          subst h1
          refine ⟨by simp, ?_⟩
          intro x hx
          rcases List.mem_cons.mp hx with rfl | hx2
          · exact ha
          · rcases List.mem_cons.mp hx2 with rfl | hx3
            · exact hd
            · cases hx3
        · simp only [takeDigits12, ha, if_true] at h
          rw [if_neg hd] at h
          simp only [Option.some.injEq, Prod.mk.injEq] at h
          obtain ⟨h1, -⟩ := h
          subst h1
          refine ⟨by simp, ?_⟩
          intro x hx
          rw [List.mem_singleton] at hx
          subst hx
          exact ha
    · simp [takeDigits12, ha] at h

theorem matchEveryNMinutesAt_digits {s ds : List Char}
    (h : matchEveryNMinutesAt s = some ds) : ds ≠ [] ∧ ∀ c ∈ ds, isDigitC c = true := by
  simp only [matchEveryNMinutesAt, Option.bind_eq_bind, Option.bind_eq_some] at h
  obtain ⟨s1, e1, s2, e2, ⟨dsx, rx⟩, e3, rest⟩ := h
  simp only at rest
  obtain ⟨s3, e4, s4, e5, e6⟩ := rest
  simp only [Option.pure_def, Option.some.injEq] at e6
  subst e6
  exact takeDigits1_spec e3

theorem matchEveryNHoursAt_digits {s ds : List Char}
    (h : matchEveryNHoursAt s = some ds) : ds ≠ [] ∧ ∀ c ∈ ds, isDigitC c = true := by
  simp only [matchEveryNHoursAt, Option.bind_eq_bind, Option.bind_eq_some] at h
  obtain ⟨s1, e1, s2, e2, ⟨dsx, rx⟩, e3, rest⟩ := h
  simp only at rest
  obtain ⟨s3, e4, s4, e5, e6⟩ := rest
  simp only [Option.pure_def, Option.some.injEq] at e6
  subst e6
  exact takeDigits1_spec e3

theorem matchMonthAt_digits {s ds : List Char}
    (h : matchMonthAt s = some ds) : ds ≠ [] ∧ ∀ c ∈ ds, isDigitC c = true := by
  simp only [matchMonthAt, Option.bind_eq_bind, Option.bind_eq_some] at h
  obtain ⟨s1, e1, s2, e2, s3, e3, s4, e4, s5, e5, s6, e6, s7, e7, s8, e8,
    ⟨dsx, rx⟩, e9, rest⟩ := h
  simp only [Option.pure_def, Option.some.injEq] at rest
  subst rest
  exact takeDigits12_spec e9

theorem digitChar_isDigit {d : Nat} (h : d < 10) : isDigitC (Nat.digitChar d) = true := by
  interval_cases d <;> decide

theorem natDigitsAux_digits : ∀ (fuel n : Nat), ∀ c ∈ natDigitsAux fuel n, isDigitC c = true
  | 0, _ => by simp [natDigitsAux]
  | _ + 1, 0 => by simp [natDigitsAux]
  | fuel + 1, m + 1 => by
    intro c hc
    simp only [natDigitsAux] at hc
    rcases List.mem_append.mp hc with h | h
    · exact natDigitsAux_digits fuel _ c h
    · simp only [List.mem_singleton] at h
      subst h
      exact digitChar_isDigit (Nat.mod_lt _ (by omega))

theorem natRepr_digits (n : Nat) :
    (natRepr n).data ≠ [] ∧ ∀ c ∈ (natRepr n).data, isDigitC c = true := by
  unfold natRepr
  by_cases h : n = 0
  · subst h
    exact ⟨by decide, by decide⟩
  · rw [if_neg h]
    refine ⟨?_, fun c hc => natDigitsAux_digits _ _ c hc⟩
    cases n with
    | zero => exact absurd rfl h
    | succ m =>
      simp only [natDigitsAux]
      simp

theorem isDigit_cronField {c : Char} (h : isDigitC c = true) : cronFieldChar c = true := by
  simp [cronFieldChar, h]

theorem lookup_snd_mem {l : List (String × String)} {k : String} {v : String}
    (h : l.lookup k = some v) : v ∈ l.map Prod.snd := by
  induction l with
  | nil => cases h
  | cons p t ih =>
    obtain ⟨a, b⟩ := p
    simp only [List.lookup] at h
    split at h
    · simp only [Option.some.injEq] at h
      subst h
      exact List.mem_cons_self _ _
    · exact List.mem_cons_of_mem _ (ih h)

theorem dayCode_field (d : String) :
    ((DAY_MAP.lookup d).getD "0").data ≠ [] ∧
      ∀ c ∈ ((DAY_MAP.lookup d).getD "0").data, cronFieldChar c = true := by
  cases h : DAY_MAP.lookup d with
  | none => exact ⟨by decide, by decide⟩
  | some v =>
    have hv : v ∈ DAY_MAP.map Prod.snd := lookup_snd_mem h
    simp only [Option.getD_some]
    have : v ∈ ["1", "2", "3", "4", "5", "6", "0", "1", "2", "3", "4", "5", "6", "0"] := by
      simpa [DAY_MAP] using hv
    fin_cases this <;> exact ⟨by decide, by decide⟩

theorem takeCronField_decomp {s r : List Char} (h : takeCronField s = some r) :
    ∃ f, s = f ++ r ∧ ∀ c ∈ f, cronFieldChar c = true := by
  simp only [takeCronField] at h
  split at h
  · cases h
  · simp only [Option.some.injEq] at h
    subst h
    exact ⟨s.takeWhile cronFieldChar, (List.takeWhile_append_dropWhile _ _).symm,
      fun c hc => List.mem_takeWhile_imp hc⟩

theorem skipWs1_decomp {s r : List Char} (h : skipWs1 s = some r) :
    ∃ w, s = w ++ r ∧ ∀ c ∈ w, pyIsSpace c = true := by
  cases s with
  | nil => cases h
  | cons a rest =>
    simp only [skipWs1] at h
    split at h
    · rename_i ha
      simp only [Option.some.injEq] at h
      subst h
      refine ⟨a :: rest.takeWhile pyIsSpace, ?_, ?_⟩
      · simp [List.takeWhile_append_dropWhile]
      · intro c hc
        rcases List.mem_cons.mp hc with rfl | hc
        · exact ha
        · exact List.mem_takeWhile_imp hc
    · cases h

theorem rawCronGroup_inv {s g : List Char} (h : rawCronGroup s = some g) :
    (∀ c ∈ s, cronFieldChar c = true ∨ pyIsSpace c = true) ∧
      (g = s ∨ s.getLast? = some '\n') := by
  simp only [rawCronGroup, Option.bind_eq_bind] at h
  rcases e1 : takeCronField s with _ | r1
  case none => rw [e1] at h; cases h
  rw [e1, Option.some_bind] at h
  rcases e2 : skipWs1 r1 with _ | r2
  case none => rw [e2] at h; cases h
  rw [e2, Option.some_bind] at h
  rcases e3 : takeCronField r2 with _ | r3
  case none => rw [e3] at h; cases h
  rw [e3, Option.some_bind] at h
  rcases e4 : skipWs1 r3 with _ | r4
  case none => rw [e4] at h; cases h
  rw [e4, Option.some_bind] at h
  rcases e5 : takeCronField r4 with _ | r5
  case none => rw [e5] at h; cases h
  rw [e5, Option.some_bind] at h
  rcases e6 : skipWs1 r5 with _ | r6
  case none => rw [e6] at h; cases h
  rw [e6, Option.some_bind] at h
  rcases e7 : takeCronField r6 with _ | r7
  case none => rw [e7] at h; cases h
  rw [e7, Option.some_bind] at h
  rcases e8 : skipWs1 r7 with _ | r8
  case none => rw [e8] at h; cases h
  rw [e8, Option.some_bind] at h
  rcases e9 : takeCronField r8 with _ | r9
  case none => rw [e9] at h; cases h
  rw [e9] at h
  obtain ⟨f1, hs1, hf1⟩ := takeCronField_decomp e1
  obtain ⟨w1, hs2, hw1⟩ := skipWs1_decomp e2
  obtain ⟨f2, hs3, hf2⟩ := takeCronField_decomp e3
  obtain ⟨w2, hs4, hw2⟩ := skipWs1_decomp e4
  obtain ⟨f3, hs5, hf3⟩ := takeCronField_decomp e5
  obtain ⟨w3, hs6, hw3⟩ := skipWs1_decomp e6
  obtain ⟨f4, hs7, hf4⟩ := takeCronField_decomp e7
  obtain ⟨w4, hs8, hw4⟩ := skipWs1_decomp e8
  obtain ⟨f5, hs9, hf5⟩ := takeCronField_decomp e9
  have hleft : (r9 = [] ∧ g = s) ∨ (r9 = ['\n'] ∧ g = s.dropLast) := by
    rcases r9 with _ | ⟨a, _ | ⟨b, t2⟩⟩
    · replace h : some s = some g := h
      injection h with h2
      exact Or.inl ⟨rfl, h2.symm⟩
    · by_cases ha : a = '\n'
      · subst ha
        replace h : some s.dropLast = some g := h
        injection h with h2
        exact Or.inr ⟨rfl, h2.symm⟩
      · exfalso
        split at h
        · rename_i heq
          cases heq
        · rename_i heq
          rw [Option.some.injEq, List.cons.injEq] at heq
          exact ha heq.1
        · cases h
    · exfalso
      split at h
      · rename_i heq
        cases heq
      · rename_i heq
        rw [Option.some.injEq, List.cons.injEq] at heq
        exact absurd heq.2 (by simp)
      · cases h
  have hchars : ∀ c ∈ s, cronFieldChar c = true ∨ pyIsSpace c = true := by
    have hr9c : ∀ c ∈ r9, pyIsSpace c = true := by
      rcases hleft with ⟨rfl, -⟩ | ⟨rfl, -⟩
      · intro c hc; cases hc
      · intro c hc
        rw [List.mem_singleton] at hc
        subst hc
        decide
    intro c hc
    rw [hs1] at hc
    rcases List.mem_append.mp hc with hc | hc
    · exact Or.inl (hf1 c hc)
    rw [hs2] at hc
    rcases List.mem_append.mp hc with hc | hc
    · exact Or.inr (hw1 c hc)
    rw [hs3] at hc
    rcases List.mem_append.mp hc with hc | hc
    · exact Or.inl (hf2 c hc)
    rw [hs4] at hc
    rcases List.mem_append.mp hc with hc | hc
    · exact Or.inr (hw2 c hc)
    rw [hs5] at hc
    rcases List.mem_append.mp hc with hc | hc
    · exact Or.inl (hf3 c hc)
    rw [hs6] at hc
    rcases List.mem_append.mp hc with hc | hc
    · exact Or.inr (hw3 c hc)
    rw [hs7] at hc
    rcases List.mem_append.mp hc with hc | hc
    · exact Or.inl (hf4 c hc)
    rw [hs8] at hc
    rcases List.mem_append.mp hc with hc | hc
    · exact Or.inr (hw4 c hc)
    rw [hs9] at hc
    rcases List.mem_append.mp hc with hc | hc
    · exact Or.inl (hf5 c hc)
    · exact Or.inr (hr9c c hc)
  refine ⟨hchars, ?_⟩
  rcases hleft with ⟨-, rfl⟩ | ⟨hr9, -⟩
  · exact Or.inl rfl
  · right
    rw [hs1, hs2, hs3, hs4, hs5, hs6, hs7, hs8, hs9, hr9]
    rw [getLastQ_append_right (by simp), getLastQ_append_right (by simp),
      getLastQ_append_right (by simp), getLastQ_append_right (by simp),
      getLastQ_append_right (by simp), getLastQ_append_right (by simp),
      getLastQ_append_right (by simp), getLastQ_append_right (by simp),
      getLastQ_append_right (by simp)]
    rfl

theorem strData_append (a b : String) : (a ++ b).data = a.data ++ b.data := rfl

/-- C7.  Parse-and-reparse stability: whenever
`parse_natural_language p = some c`, re-parsing the produced cron
expression returns it unchanged.  Every output is a five-field cron
expression containing no letters, so no phrase rule can fire on it, and
the raw-cron passthrough returns its input verbatim. -/
theorem cron_parser_reparse_stable (p c : String)
    (h : parse_natural_language p = some c) :
    parse_natural_language c = some c := by
  simp only [parse_natural_language] at h
  rcases e1 : searchO matchEveryNMinutesAt (pyLower (pyStrip p)).data with _ | ds
  · rcases e2 : searchO matchEveryNHoursAt (pyLower (pyStrip p)).data with _ | ds
    · rcases e3 : searchO matchEveryMinuteAt (pyLower (pyStrip p)).data with _ | u
      · rcases e4 : searchO matchEveryHourAt (pyLower (pyStrip p)).data with _ | u
        · rcases e5 : searchO matchMonthAt (pyLower (pyStrip p)).data with _ | ds
          · rcases e6 : searchO matchEveryDayAt (pyLower (pyStrip p)).data with _ | pr
            · rcases e7 : searchO matchDayAt (pyLower (pyStrip p)).data with _ | tri
              · rcases e8 : searchO matchWeekdayAt (pyLower (pyStrip p)).data with _ | pr
                · rcases e9 : rawCronGroup (pyStrip p).data with _ | g
                  · simp only [e1, e2, e3, e4, e5, e6, e7, e8, e9] at h
                    exact Option.noConfusion h
                  · simp only [e1, e2, e3, e4, e5, e6, e7, e8, e9,
                      Option.some.injEq] at h
                    subst h
                    obtain ⟨hchars, hcase⟩ := rawCronGroup_inv e9
                    rcases hcase with hg | hlast
                    · subst hg
                      rw [stringMk_data]
                      have hstrip2 : pyStrip (pyStrip p) = pyStrip p := pyStrip_idem p
                      have hmap : (pyStrip p).data.map Char.toLower = (pyStrip p).data :=
                        (List.map_congr_left fun c hc =>
                          cronChar_toLower (hchars c hc)).trans (List.map_id _)
                      have hlowt : pyLower (pyStrip p) = pyStrip p := by
                        calc pyLower (pyStrip p) = ⟨(pyStrip p).data.map Char.toLower⟩ := rfl
                          _ = ⟨(pyStrip p).data⟩ := by rw [hmap]
                          _ = pyStrip p := stringMk_data _
                      have hE : ('e' : Char) ∉ (pyStrip p).data :=
                        fun hm => cronChar_ne_e (hchars _ hm) rfl
                      simp only [parse_natural_language, hstrip2, hlowt,
                        searchO_minutes_none hE, searchO_hours_none hE,
                        searchO_minute_none hE, searchO_hour_none hE,
                        searchO_month_none hE, searchO_day_phrase_none hE,
                        searchO_weekday_table_none hE, searchO_weekday_none hE,
                        e9, stringMk_data]
                    · exact absurd (pyStripL_getLast_not_ws hlast) (by decide)
                · obtain ⟨ds, ap⟩ := pr
                  simp only [e1, e2, e3, e4, e5, e6, e7, e8, Option.some.injEq] at h
                  subst h
                  obtain ⟨hne, hdig⟩ := natRepr_digits (parseHour ⟨ds⟩ ap)
                  exact parse_natural_language_fixpoint _ ['0']
                    (natRepr (parseHour ⟨ds⟩ ap)).data ['*'] ['*'] ['1', '-', '5'] rfl
                    ⟨by decide, by decide⟩
                    ⟨hne, fun c hc => isDigit_cronField (hdig c hc)⟩
                    ⟨by decide, by decide⟩ ⟨by decide, by decide⟩ ⟨by decide, by decide⟩
              · obtain ⟨d, ds, ap⟩ := tri
                simp only [e1, e2, e3, e4, e5, e6, e7, Option.some.injEq] at h
                subst h
                obtain ⟨hne, hdig⟩ := natRepr_digits (parseHour ⟨ds⟩ ap)
                obtain ⟨hbne, hbf⟩ := dayCode_field d
                refine parse_natural_language_fixpoint _ ['0']
                  (natRepr (parseHour ⟨ds⟩ ap)).data ['*'] ['*']
                  ((DAY_MAP.lookup d).getD "0").data ?_
                  ⟨by decide, by decide⟩
                  ⟨hne, fun c hc => isDigit_cronField (hdig c hc)⟩
                  ⟨by decide, by decide⟩ ⟨by decide, by decide⟩ ⟨hbne, hbf⟩
                simp only [strData_append, List.append_assoc]
                rfl
            · obtain ⟨ds, ap⟩ := pr
              simp only [e1, e2, e3, e4, e5, e6, Option.some.injEq] at h
              subst h
              obtain ⟨hne, hdig⟩ := natRepr_digits (parseHour ⟨ds⟩ ap)
              exact parse_natural_language_fixpoint _ ['0']
                (natRepr (parseHour ⟨ds⟩ ap)).data ['*'] ['*'] ['*'] rfl
                ⟨by decide, by decide⟩
                ⟨hne, fun c hc => isDigit_cronField (hdig c hc)⟩
                ⟨by decide, by decide⟩ ⟨by decide, by decide⟩ ⟨by decide, by decide⟩
          · simp only [e1, e2, e3, e4, e5, Option.some.injEq] at h
            subst h
            obtain ⟨s', hs'⟩ := searchO_some _ e5
            obtain ⟨hne, hdig⟩ := matchMonthAt_digits hs'
            exact parse_natural_language_fixpoint _ ['0'] ['0'] ds ['*'] ['*'] rfl
              ⟨by decide, by decide⟩ ⟨by decide, by decide⟩
              ⟨hne, fun c hc => isDigit_cronField (hdig c hc)⟩
              ⟨by decide, by decide⟩ ⟨by decide, by decide⟩
        · simp only [e1, e2, e3, e4, Option.some.injEq] at h
          subst h
          exact parse_natural_language_fixpoint _ ['0'] ['*'] ['*'] ['*'] ['*'] rfl
            ⟨by decide, by decide⟩ ⟨by decide, by decide⟩ ⟨by decide, by decide⟩
            ⟨by decide, by decide⟩ ⟨by decide, by decide⟩
      · simp only [e1, e2, e3, Option.some.injEq] at h
        subst h
        exact parse_natural_language_fixpoint _ ['*'] ['*'] ['*'] ['*'] ['*'] rfl
          ⟨by decide, by decide⟩ ⟨by decide, by decide⟩ ⟨by decide, by decide⟩
          ⟨by decide, by decide⟩ ⟨by decide, by decide⟩
    · simp only [e1, e2, Option.some.injEq] at h
      subst h
      obtain ⟨s', hs'⟩ := searchO_some _ e2
      obtain ⟨hne, hdig⟩ := matchEveryNHoursAt_digits hs'
      refine parse_natural_language_fixpoint _ ['0'] ('*' :: '/' :: ds) ['*'] ['*'] ['*'] rfl
        ⟨by decide, by decide⟩ ⟨by simp, ?_⟩
        ⟨by decide, by decide⟩ ⟨by decide, by decide⟩ ⟨by decide, by decide⟩
      intro x hx
      rcases List.mem_cons.mp hx with rfl | hx
      · decide
      rcases List.mem_cons.mp hx with rfl | hx
      · decide
      · exact isDigit_cronField (hdig x hx)
  · simp only [e1, Option.some.injEq] at h
    subst h
    obtain ⟨s', hs'⟩ := searchO_some _ e1
    obtain ⟨hne, hdig⟩ := matchEveryNMinutesAt_digits hs'
    refine parse_natural_language_fixpoint _ ('*' :: '/' :: ds) ['*'] ['*'] ['*'] ['*'] rfl
      ⟨by simp, ?_⟩ ⟨by decide, by decide⟩
      ⟨by decide, by decide⟩ ⟨by decide, by decide⟩ ⟨by decide, by decide⟩
    intro x hx
    rcases List.mem_cons.mp hx with rfl | hx
    · decide
    rcases List.mem_cons.mp hx with rfl | hx
    · decide
    · exact isDigit_cronField (hdig x hx)

/-- Witness for the C7 theorem at a concrete phrase. -/
theorem cron_parser_reparse_stable_witness :
    parse_natural_language "0 7 * * 0" = some "0 7 * * 0" :=
  cron_parser_reparse_stable "every sun at 7am" "0 7 * * 0" (by decide)

/-! ## C9: migration never disturbs existing entries -/

theorem migrateLoop_appends (ids : List (Option String)) (now : String) :
    ∀ (fs : List (Option JobEntry)) (acc : List JobEntry),
      ∃ t, migrateLoop ids now fs acc = acc ++ t ∧
        ∀ j ∈ t, ∃ e, some e ∈ fs ∧ j = migrateEntry now e := by
  intro fs
  induction fs with
  | nil => exact fun acc => ⟨[], by simp [migrateLoop]⟩
  | cons f fs ih =>
    intro acc
    cases f with
    | none =>
      obtain ⟨t, ht, hmem⟩ := ih acc
      exact ⟨t, by simpa [migrateLoop] using ht,
        fun j hj => by
          obtain ⟨e, he, hje⟩ := hmem j hj
          exact ⟨e, List.mem_cons_of_mem _ he, hje⟩⟩
    | some e =>
      by_cases hid : ids.contains (some (e.id.getD "")) = true
      · obtain ⟨t, ht, hmem⟩ := ih acc
        refine ⟨t, ?_, fun j hj => ?_⟩
        · simp only [migrateLoop]
          rw [if_pos hid, ht]
        · obtain ⟨e2, he2, hje2⟩ := hmem j hj
          exact ⟨e2, List.mem_cons_of_mem _ he2, hje2⟩
      · obtain ⟨t, ht, hmem⟩ := ih (acc ++ [migrateEntry now e])
        refine ⟨migrateEntry now e :: t, ?_, fun j hj => ?_⟩
        · simp only [migrateLoop]
          rw [if_neg hid, ht, List.append_assoc]
          rfl
        · rcases List.mem_cons.mp hj with rfl | hjt
          · exact ⟨e, List.mem_cons_self _ _, rfl⟩
          · obtain ⟨e2, he2, hje2⟩ := hmem j hjt
            exact ⟨e2, List.mem_cons_of_mem _ he2, hje2⟩

/-- C9.  The legacy-file migration preserves every pre-existing `jobs.json`
entry in place and order; anything new is appended at the end, and every
appended entry is the schema-renaming `migrateEntry` of some legacy file. -/
theorem migration_preserves_existing_entries (jobs : List JobEntry)
    (files : List (Option JobEntry)) (now : String) :
    ∃ appended, migrateIndividualFiles jobs files now = jobs ++ appended ∧
      ∀ j ∈ appended, ∃ e, some e ∈ files ∧ j = migrateEntry now e := by
  unfold migrateIndividualFiles
  by_cases h : files.isEmpty
  · exact ⟨[], by simp [h], by simp⟩
  · rw [if_neg h]
    exact migrateLoop_appends _ _ _ _


/-! ## C4, C5, C10: workflow layering, cycles, and totality -/

/-! ## Workflow: order lemmas for `strLeP` -/

theorem leChars_total : ∀ a b : List Char, leChars a b = true ∨ leChars b a = true := by
  intro a
  induction a with
  | nil => intro b; left; rfl
  | cons x xs ih =>
    intro b
    cases b with
    | nil => right; rfl
    | cons y ys =>
      by_cases h1 : x < y
      · left; simp [leChars, h1]
      · by_cases h2 : y < x
        · right; simp [leChars, h2]
        · rcases ih ys with h | h
          · left; simp [leChars, h1, h2, h]
          · right; simp [leChars, h1, h2, h]

theorem char_eq_of_not_lt {a b : Char} (h1 : ¬ a < b) (h2 : ¬ b < a) : a = b :=
  le_antisymm (not_lt.mp h2) (not_lt.mp h1)

theorem leChars_trans :
    ∀ a b c : List Char, leChars a b = true → leChars b c = true → leChars a c = true := by
  intro a
  induction a with
  | nil => intro b c _ _; rfl
  | cons x xs ih =>
    intro b c hab hbc
    cases b with
    | nil => simp [leChars] at hab
    | cons y ys =>
      cases c with
      | nil => simp [leChars] at hbc
      | cons z zs =>
        by_cases hxy : x < y
        · by_cases hyz : y < z
          · have hxz : x < z := lt_trans hxy hyz
            simp [leChars, hxz]
          · by_cases hzy : z < y
            · simp [leChars, hyz, hzy] at hbc
            · have hyzeq : y = z := char_eq_of_not_lt hyz hzy
              subst hyzeq
              simp [leChars, hxy]
        · by_cases hyx : y < x
          · simp [leChars, hxy, hyx] at hab
          · have hxyeq : x = y := char_eq_of_not_lt hxy hyx
            subst hxyeq
            simp only [leChars, if_neg (lt_irrefl x)] at hab
            by_cases hxz : x < z
            · simp [leChars, hxz]
            · by_cases hzx : z < x
              · simp [leChars, hxz, hzx] at hbc
              · simp only [leChars, if_neg hxz, if_neg hzx] at hbc ⊢
                exact ih ys zs hab hbc

theorem strLeP_total : ∀ a b : String, strLeP a b ∨ strLeP b a :=
  fun a b => leChars_total a.data b.data

theorem strLeP_trans : ∀ a b c : String, strLeP a b → strLeP b c → strLeP a c :=
  fun a b c => leChars_trans a.data b.data c.data

/-! ## Dict lemmas -/

theorem find?_map_dset (d : List (String × α)) (k : String) (v : α) :
    (d.map (fun p => if p.1 == k then (p.1, v) else p)).find? (fun p => p.1 == k) =
      (d.find? (fun p => p.1 == k)).map (fun p => (p.1, v)) := by
  induction d with
  | nil => rfl
  | cons p d ih =>
    rw [List.map_cons]
    by_cases hp : p.1 == k
    · rw [if_pos hp, @List.find?_cons_of_pos _ (fun q => q.1 == k) (p.1, v) _ hp,
        @List.find?_cons_of_pos _ (fun q => q.1 == k) p _ hp]
      rfl
    · rw [if_neg hp, @List.find?_cons_of_neg _ (fun q => q.1 == k) p _ hp,
        @List.find?_cons_of_neg _ (fun q => q.1 == k) p _ hp]
      exact ih

theorem dget_dset_self (d : List (String × α)) (k : String) (v : α) :
    dget (dset d k v) k = some v := by
  unfold dget dset
  split
  · rename_i h
    rw [find?_map_dset]
    obtain ⟨p, hp⟩ := Option.isSome_iff_exists.mp h
    rw [hp]
    rfl
  · rename_i h
    have hn : d.find? (fun p => p.1 == k) = none := by
      cases hfind : d.find? (fun p => p.1 == k) with
      | none => rfl
      | some p => rw [hfind] at h; simp at h
    rw [List.find?_append, hn]
    simp [List.find?]

theorem find?_map_dset_ne (d : List (String × α)) (k k2 : String) (v : α) (h : k2 ≠ k) :
    (d.map (fun p => if p.1 == k then (p.1, v) else p)).find? (fun p => p.1 == k2) =
      d.find? (fun p => p.1 == k2) := by
  induction d with
  | nil => rfl
  | cons p d ih =>
    rw [List.map_cons]
    by_cases h2 : p.1 == k2
    · have hk : ¬ (p.1 == k) = true := by
        have he : p.1 = k2 := by simpa using h2
        simp [he, h]
      rw [if_neg hk, @List.find?_cons_of_pos _ (fun q => q.1 == k2) p _ h2,
        @List.find?_cons_of_pos _ (fun q => q.1 == k2) p _ h2]
    · by_cases hk : p.1 == k
      · rw [if_pos hk, @List.find?_cons_of_neg _ (fun q => q.1 == k2) (p.1, v) _ h2,
          @List.find?_cons_of_neg _ (fun q => q.1 == k2) p _ h2]
        exact ih
      · rw [if_neg hk, @List.find?_cons_of_neg _ (fun q => q.1 == k2) p _ h2,
        @List.find?_cons_of_neg _ (fun q => q.1 == k2) p _ h2]
        exact ih

theorem dget_dset_ne (d : List (String × α)) (k k2 : String) (v : α) (h : k2 ≠ k) :
    dget (dset d k v) k2 = dget d k2 := by
  unfold dget dset
  split
  · rw [find?_map_dset_ne _ _ _ _ h]
  · rw [List.find?_append]
    have hkk : (k == k2) = false := by
      simp [Ne.symm h]
    have : ([(k, v)].find? (fun p => p.1 == k2)) = none := by
      simp [List.find?, hkk]
    rw [this]
    cases d.find? (fun p => p.1 == k2) <;> rfl

theorem dget_dmod_self (d : List (String × α)) (k : String) (f : α → α) :
    dget (dmod d k f) k = (dget d k).map f := by
  induction d with
  | nil => rfl
  | cons p d ih =>
    simp only [dget, dmod, List.map_cons] at ih ⊢
    by_cases hp : p.1 == k
    · rw [if_pos hp, @List.find?_cons_of_pos _ (fun q => q.1 == k) (p.1, f p.2) _ hp,
        @List.find?_cons_of_pos _ (fun q => q.1 == k) p _ hp]
      rfl
    · rw [if_neg hp, @List.find?_cons_of_neg _ (fun q => q.1 == k) p _ hp,
        @List.find?_cons_of_neg _ (fun q => q.1 == k) p _ hp]
      exact ih

theorem dget_dmod_ne (d : List (String × α)) (k n : String) (f : α → α) (h : n ≠ k) :
    dget (dmod d k f) n = dget d n := by
  induction d with
  | nil => rfl
  | cons p d ih =>
    simp only [dget, dmod, List.map_cons] at ih ⊢
    by_cases hp : p.1 == k
    · have hn : ¬ (p.1 == n) = true := by
        have he : p.1 = k := by simpa using hp
        simp [he, Ne.symm h]
      rw [if_pos hp, @List.find?_cons_of_neg _ (fun q => q.1 == n) (p.1, f p.2) _ hn,
        @List.find?_cons_of_neg _ (fun q => q.1 == n) p _ hn]
      exact ih
    · by_cases hn : p.1 == n
      · rw [if_neg hp, @List.find?_cons_of_pos _ (fun q => q.1 == n) p _ hn,
          @List.find?_cons_of_pos _ (fun q => q.1 == n) p _ hn]
      · rw [if_neg hp, @List.find?_cons_of_neg _ (fun q => q.1 == n) p _ hn,
          @List.find?_cons_of_neg _ (fun q => q.1 == n) p _ hn]
        exact ih

theorem keysOf_dset_of_isSome (d : List (String × α)) (k : String) (v : α)
    (h : (d.find? (fun p => p.1 == k)).isSome) : keysOf (dset d k v) = keysOf d := by
  unfold dset keysOf
  rw [if_pos h, List.map_map]
  apply List.map_congr_left
  intro p _
  simp only [Function.comp]
  split <;> rfl

theorem keysOf_dmod (d : List (String × α)) (k : String) (f : α → α) :
    keysOf (dmod d k f) = keysOf d := by
  unfold dmod keysOf
  rw [List.map_map]
  apply List.map_congr_left
  intro p _
  simp only [Function.comp]
  split <;> rfl

theorem mem_keysOf_iff (d : List (String × α)) (n : String) :
    n ∈ keysOf d ↔ (dget d n).isSome := by
  unfold keysOf dget
  have hiso : ((d.find? (fun p => p.1 == n)).map (·.2)).isSome =
      (d.find? (fun p => p.1 == n)).isSome := by
    cases d.find? (fun p => p.1 == n) <;> rfl
  rw [hiso, List.find?_isSome]
  constructor
  · intro h
    obtain ⟨p, hp, he⟩ := List.mem_map.mp h
    exact ⟨p, hp, by simp [he]⟩
  · rintro ⟨p, hp, he⟩
    exact List.mem_map.mpr ⟨p, hp, by simpa using he⟩

theorem keysOf_dset_nodup (d : List (String × α)) (k : String) (v : α)
    (h : (keysOf d).Nodup) : (keysOf (dset d k v)).Nodup := by
  by_cases hs : (d.find? (fun p => p.1 == k)).isSome
  · rw [keysOf_dset_of_isSome _ _ _ hs]; exact h
  · have hkeys : keysOf (dset d k v) = keysOf d ++ [k] := by
      unfold dset keysOf
      rw [if_neg hs, List.map_append]
      rfl
    rw [hkeys, List.nodup_append]
    refine ⟨h, List.nodup_singleton k, ?_⟩
    intro x hx hxk
    have hxk2 : x = k := by simpa using hxk
    subst hxk2
    have hxs : (dget d x).isSome := (mem_keysOf_iff d x).mp hx
    unfold dget at hxs
    have hiso : ((d.find? (fun p => p.1 == x)).map (·.2)).isSome =
        (d.find? (fun p => p.1 == x)).isSome := by
      cases d.find? (fun p => p.1 == x) <;> rfl
    rw [hiso] at hxs
    exact hs hxs

theorem dget_eq_of_mem (d : List (String × α)) (hnd : (keysOf d).Nodup)
    (n : String) (v : α) (h : (n, v) ∈ d) : dget d n = some v := by
  induction d with
  | nil => cases h
  | cons p d ih =>
    rw [keysOf, List.map_cons, List.nodup_cons] at hnd
    rcases List.mem_cons.mp h with he | hm
    · subst he
      simp [dget, List.find?]
    · have hp : (p.1 == n) = false := by
        have : n ∈ keysOf d := List.mem_map.mpr ⟨(n, v), hm, rfl⟩
        have hne : p.1 ≠ n := fun he2 => hnd.1 (he2 ▸ this)
        simpa using hne
      have := ih hnd.2 hm
      simpa [dget, List.find?, hp] using this

theorem mem_queue0_iff (d : List (String × Int)) (hnd : (keysOf d).Nodup)
    (n : String) (z : Int) :
    n ∈ (d.filter (fun p => p.2 == z)).map (·.1) ↔ dget d n = some z := by
  constructor
  · intro h
    obtain ⟨p, hp, he⟩ := List.mem_map.mp h
    obtain ⟨hpd, hpz⟩ := List.mem_filter.mp hp
    have hz : p.2 = z := by simpa using hpz
    have hpe : p = (n, z) := by
      cases p
      simp only at he hz
      simp [he, hz]
    rw [hpe] at hpd
    exact dget_eq_of_mem d hnd n z hpd
  · intro h
    unfold dget at h
    obtain ⟨p, hfind⟩ : ∃ p, d.find? (fun p => p.1 == n) = some p := by
      cases hf : d.find? (fun p => p.1 == n) with
      | none => rw [hf] at h; simp at h
      | some p => exact ⟨p, rfl⟩
    rw [hfind] at h
    have hz : p.2 = z := by simpa using h
    have hmem := List.mem_of_find?_eq_some hfind
    have hp1 := List.find?_some hfind
    exact List.mem_map.mpr
      ⟨p, List.mem_filter.mpr ⟨hmem, by simp [hz]⟩, by simpa using hp1⟩

/-! ## initDict lemmas -/

theorem dget_initDict_go (v : α) :
    ∀ (steps : List StepDef) (d0 : List (String × α)) (n : String),
      dget (steps.foldl (fun d s => dset d s.name v) d0) n =
        if n ∈ steps.map (·.name) then some v else dget d0 n := by
  intro steps
  induction steps with
  | nil => intro d0 n; simp
  | cons s steps ih =>
    intro d0 n
    rw [List.foldl_cons, ih]
    by_cases hn : n ∈ steps.map (·.name)
    · simp [hn]
    · by_cases hns : n = s.name
      · subst hns
        simp [hn, dget_dset_self]
      · simp [hn, hns, dget_dset_ne _ _ _ _ hns]

theorem dget_initDict (steps : List StepDef) (v : α) (n : String) :
    dget (initDict steps v) n = if n ∈ steps.map (·.name) then some v else none := by
  unfold initDict
  rw [dget_initDict_go]
  rfl

theorem keysOf_initDict_nodup (steps : List StepDef) (v : α) :
    (keysOf (initDict steps v)).Nodup := by
  suffices h : ∀ (l : List StepDef) (d0 : List (String × α)), (keysOf d0).Nodup →
      (keysOf (l.foldl (fun d s => dset d s.name v) d0)).Nodup by
    exact h steps [] List.nodup_nil
  intro l
  induction l with
  | nil => intro d0 h; exact h
  | cons s l ih => intro d0 h; exact ih _ (keysOf_dset_nodup _ _ _ h)

/-! ## buildGraph characterization -/

theorem dget_isSome_find? (d : List (String × α)) (k : String) :
    (dget d k).isSome = (d.find? (fun p => p.1 == k)).isSome := by
  unfold dget
  cases d.find? (fun p => p.1 == k) <;> rfl

theorem addStepEdges_chain (steps : List StepDef) (sname : String)
    (hsname : sname ∈ steps.map (·.name)) :
    ∀ (deps : List String), (∀ d ∈ deps, d ∈ steps.map (·.name)) →
    ∀ (E : List (String × String)) (adj : List (String × List String))
      (deg : List (String × Int)),
      (∀ m, dget adj m = if m ∈ steps.map (·.name) then
          some ((E.filter (fun e => e.1 == m)).map (·.2)) else none) →
      (∀ n, dget deg n = if n ∈ steps.map (·.name) then
          some (((E.filter (fun e => e.2 == n)).length : Int)) else none) →
      ∃ adj2 deg2,
        deps.foldlM (fun acc dep =>
            match dget acc.1 dep with
            | none => Except.error ("KeyError: " ++ dep)
            | some lst => Except.ok (dset acc.1 dep (lst ++ [sname]), dmod acc.2 sname (· + 1)))
          (adj, deg) = Except.ok (adj2, deg2) ∧
        (∀ m, dget adj2 m = if m ∈ steps.map (·.name) then
            some ((((E ++ deps.map (fun d => (d, sname))).filter (fun e => e.1 == m)).map (·.2)))
          else none) ∧
        (∀ n, dget deg2 n = if n ∈ steps.map (·.name) then
            some ((((E ++ deps.map (fun d => (d, sname))).filter (fun e => e.2 == n)).length : Int))
          else none) ∧
        keysOf adj2 = keysOf adj ∧ keysOf deg2 = keysOf deg := by
  intro deps
  induction deps with
  | nil =>
    intro _ E adj deg hA hD
    exact ⟨adj, deg, rfl, by simpa using hA, by simpa using hD, rfl, rfl⟩
  | cons dep deps ih =>
    intro hdeps E adj deg hA hD
    have hdep : dep ∈ steps.map (·.name) := hdeps dep (by simp)
    have hAdep := hA dep
    rw [if_pos hdep] at hAdep
    set adj1 := dset adj dep ((E.filter (fun e => e.1 == dep)).map (·.2) ++ [sname]) with hadj1
    set deg1 := dmod deg sname (· + 1) with hdeg1
    have hA1 : ∀ m, dget adj1 m = if m ∈ steps.map (·.name) then
        some (((E ++ [(dep, sname)]).filter (fun e => e.1 == m)).map (·.2)) else none := by
      intro m
      by_cases hm : m = dep
      · subst hm
        rw [hadj1, dget_dset_self, if_pos hdep]
        have hfil : ([(m, sname)].filter (fun e => e.1 == m)) = [(m, sname)] := by
          simp
        rw [List.filter_append, hfil, List.map_append]
        rfl
      · rw [hadj1, dget_dset_ne _ _ _ _ hm, hA m]
        have hfil : ([(dep, sname)].filter (fun e => e.1 == m)) = [] := by
          simp [Ne.symm hm]
        rw [List.filter_append, hfil, List.append_nil]
    have hD1 : ∀ n, dget deg1 n = if n ∈ steps.map (·.name) then
        some ((((E ++ [(dep, sname)]).filter (fun e => e.2 == n)).length : Int)) else none := by
      intro n
      by_cases hn : n = sname
      · subst hn
        rw [hdeg1, dget_dmod_self, hD n, if_pos hsname, if_pos hsname]
        have hfil : ([(dep, n)].filter (fun e => e.2 == n)) = [(dep, n)] := by
          simp
        rw [List.filter_append, hfil, List.length_append]
        simp only [Option.map_some, List.length_cons, List.length_nil]
        norm_num
      · rw [hdeg1, dget_dmod_ne _ _ _ _ hn, hD n]
        have hfil : ([(dep, sname)].filter (fun e => e.2 == n)) = [] := by
          simp [Ne.symm hn]
        rw [List.filter_append, hfil, List.append_nil]
    obtain ⟨adj2, deg2, heq, hA2, hD2, hKA, hKD⟩ :=
      ih (fun d hd => hdeps d (List.mem_cons_of_mem _ hd)) (E ++ [(dep, sname)]) adj1 deg1 hA1 hD1
    refine ⟨adj2, deg2, ?_, ?_, ?_, ?_, ?_⟩
    · rw [List.foldlM_cons]
      simp only [hAdep]
      exact heq
    · intro m
      rw [hA2 m, List.append_assoc]
      rfl
    · intro n
      rw [hD2 n, List.append_assoc]
      rfl
    · rw [hKA, hadj1]
      apply keysOf_dset_of_isSome
      have := dget_isSome_find? adj dep
      rw [hAdep] at this
      exact this.symm ▸ rfl
    · rw [hKD, hdeg1, keysOf_dmod]

theorem edgesOf_cons (s : StepDef) (todo : List StepDef) :
    edgesOf (s :: todo) = s.depends_on.map (fun d => (d, s.name)) ++ edgesOf todo := by
  simp [edgesOf]

theorem buildGraph_fold (steps : List StepDef)
    (hres : ∀ s ∈ steps, ∀ d ∈ s.depends_on, d ∈ steps.map (·.name)) :
    ∀ (todo : List StepDef), (∀ s ∈ todo, s ∈ steps) →
    ∀ (E : List (String × String)) (adj : List (String × List String))
      (deg : List (String × Int)),
      (∀ m, dget adj m = if m ∈ steps.map (·.name) then
          some ((E.filter (fun e => e.1 == m)).map (·.2)) else none) →
      (∀ n, dget deg n = if n ∈ steps.map (·.name) then
          some (((E.filter (fun e => e.2 == n)).length : Int)) else none) →
      ∃ adj2 deg2, todo.foldlM addStepEdges (adj, deg) = Except.ok (adj2, deg2) ∧
        (∀ m, dget adj2 m = if m ∈ steps.map (·.name) then
            some (((E ++ edgesOf todo).filter (fun e => e.1 == m)).map (·.2)) else none) ∧
        (∀ n, dget deg2 n = if n ∈ steps.map (·.name) then
            some ((((E ++ edgesOf todo).filter (fun e => e.2 == n)).length : Int)) else none) ∧
        keysOf adj2 = keysOf adj ∧ keysOf deg2 = keysOf deg := by
  intro todo
  induction todo with
  | nil =>
    intro _ E adj deg hA hD
    refine ⟨adj, deg, rfl, ?_, ?_, rfl, rfl⟩
    · intro m
      have : edgesOf ([] : List StepDef) = [] := rfl
      rw [this, List.append_nil]
      exact hA m
    · intro n
      have : edgesOf ([] : List StepDef) = [] := rfl
      rw [this, List.append_nil]
      exact hD n
  | cons s todo ih =>
    intro hsub E adj deg hA hD
    have hs : s ∈ steps := hsub s (by simp)
    have hsname : s.name ∈ steps.map (·.name) := List.mem_map.mpr ⟨s, hs, rfl⟩
    obtain ⟨adj1, deg1, heq1, hA1, hD1, hKA1, hKD1⟩ :=
      addStepEdges_chain steps s.name hsname s.depends_on (hres s hs) E adj deg hA hD
    obtain ⟨adj2, deg2, heq2, hA2, hD2, hKA2, hKD2⟩ :=
      ih (fun t ht => hsub t (List.mem_cons_of_mem _ ht))
        (E ++ s.depends_on.map (fun d => (d, s.name))) adj1 deg1 hA1 hD1
    refine ⟨adj2, deg2, ?_, ?_, ?_, ?_, ?_⟩
    · rw [List.foldlM_cons]
      have hstep : addStepEdges (adj, deg) s = Except.ok (adj1, deg1) := heq1
      rw [hstep]
      exact heq2
    · intro m
      rw [hA2 m, edgesOf_cons, List.append_assoc]
    · intro n
      rw [hD2 n, edgesOf_cons, List.append_assoc]
    · rw [hKA2, hKA1]
    · rw [hKD2, hKD1]

theorem buildGraph_rep (steps : List StepDef)
    (hres : ∀ s ∈ steps, ∀ d ∈ s.depends_on, d ∈ steps.map (·.name)) :
    ∃ adj deg, buildGraph steps = Except.ok (adj, deg) ∧
      (∀ m, dget adj m = if m ∈ steps.map (·.name) then
          some (((edgesOf steps).filter (fun e => e.1 == m)).map (·.2)) else none) ∧
      (∀ n, dget deg n = if n ∈ steps.map (·.name) then
          some ((indeg0 steps n : Int)) else none) ∧
      (keysOf deg).Nodup := by
  have hA0 : ∀ m, dget (initDict steps ([] : List String)) m =
      if m ∈ steps.map (·.name) then
        some ((([] : List (String × String)).filter (fun e => e.1 == m)).map (·.2))
      else none := by
    intro m
    rw [dget_initDict]
    rfl
  have hD0 : ∀ n, dget (initDict steps (0 : Int)) n =
      if n ∈ steps.map (·.name) then
        some (((([] : List (String × String)).filter (fun e => e.2 == n)).length : Int))
      else none := by
    intro n
    rw [dget_initDict]
    rfl
  obtain ⟨adj2, deg2, heq, hA, hD, _, hKD⟩ :=
    buildGraph_fold steps hres steps (fun _ h => h) [] _ _ hA0 hD0
  refine ⟨adj2, deg2, heq, ?_, ?_, ?_⟩
  · intro m
    rw [hA m, List.nil_append]
  · intro n
    rw [hD n, List.nil_append]
    rfl
  · rw [hKD]
    exact keysOf_initDict_nodup steps 0

/-! ## Counting lemmas -/

theorem contains_iff_mem (l : List String) (x : String) : l.contains x = true ↔ x ∈ l :=
  List.elem_iff

theorem cntOcc_append (a b : List String) (n : String) :
    cntOcc (a ++ b) n = cntOcc a n + cntOcc b n := by
  unfold cntOcc
  rw [List.filter_append, List.length_append]

theorem cntOcc_singleton (t n : String) : cntOcc [t] n = if t = n then 1 else 0 := by
  unfold cntOcc
  by_cases h : t = n
  · simp [h]
  · simp [h]

theorem length_filter_or_disjoint (l : List (String × String)) (p q : String × String → Bool)
    (hdisj : ∀ e ∈ l, ¬(p e = true ∧ q e = true)) :
    (l.filter (fun e => p e || q e)).length = (l.filter p).length + (l.filter q).length := by
  induction l with
  | nil => rfl
  | cons e l ih =>
    have htl : ∀ x ∈ l, ¬(p x = true ∧ q x = true) :=
      fun x hx => hdisj x (List.mem_cons_of_mem _ hx)
    rw [List.filter_cons, List.filter_cons, List.filter_cons]
    by_cases hp : p e = true
    · have hq : ¬ q e = true := fun hq => hdisj e (List.mem_cons_self _ _) ⟨hp, hq⟩
      rw [if_pos (show (p e || q e) = true by simp [hp]), if_pos hp, if_neg hq]
      simp only [List.length_cons]
      rw [ih htl]
      omega
    · by_cases hq : q e = true
      · rw [if_pos (show (p e || q e) = true by simp [hq]), if_neg hp, if_pos hq]
        simp only [List.length_cons]
        rw [ih htl]
        omega
      · rw [if_neg (show ¬ (p e || q e) = true by simp [hp, hq]), if_neg hp, if_neg hq]
        exact ih htl

theorem cntOcc_flatMap_succs (E : List (String × String)) (n : String) :
    ∀ layer : List String, layer.Nodup →
      cntOcc (layer.flatMap (fun m => (E.filter (fun e => e.1 == m)).map (·.2))) n =
        (E.filter (fun e => layer.contains e.1 && e.2 == n)).length := by
  intro layer
  induction layer with
  | nil =>
    intro _
    have h0 : (E.filter (fun e => ([] : List String).contains e.1 && e.2 == n)) = [] := by
      apply List.eq_nil_of_length_eq_zero
      rw [(List.filter_congr (fun e _ => by rfl) :
        E.filter (fun e => ([] : List String).contains e.1 && e.2 == n) =
          E.filter (fun _ => false))]
      simp
    rw [h0]
    rfl
  | cons m layer ih =>
    intro hnd
    rw [List.flatMap_cons, cntOcc_append]
    have h1 : cntOcc ((E.filter (fun e => e.1 == m)).map (·.2)) n =
        (E.filter (fun e => (e.1 == m) && (e.2 == n))).length := by
      unfold cntOcc
      rw [List.filter_map, List.length_map]
      congr 1
      rw [List.filter_filter]
      apply List.filter_congr
      intro e _
      simp only [Function.comp]
      rw [Bool.and_comm]
    have h2 : (E.filter (fun e => (m :: layer).contains e.1 && e.2 == n)).length =
        (E.filter (fun e => ((e.1 == m) && (e.2 == n)) ||
          (layer.contains e.1 && e.2 == n))).length := by
      congr 1
      apply List.filter_congr
      intro e _
      rw [List.contains_cons]
      cases h1 : (e.1 == m) <;> cases h2 : layer.contains e.1 <;> cases h3 : (e.2 == n) <;>
        simp [h1, h2, h3]
    rw [h1, h2, length_filter_or_disjoint, ih hnd.of_cons]
    intro e _ ⟨hpe, hqe⟩
    have he1 : e.1 = m := by simpa using (Bool.and_elim_left hpe)
    have he2 : layer.contains e.1 = true := Bool.and_elim_left hqe
    rw [he1] at he2
    exact (List.nodup_cons.mp hnd).1 ((contains_iff_mem _ _).mp he2)

theorem baseDeg_nil (steps : List StepDef) (n : String) :
    baseDeg steps [] n = (indeg0 steps n : Int) := by
  unfold baseDeg edgesFrom
  have h0 : ((edgesOf steps).filter (fun e => ([] : List String).contains e.1 && e.2 == n)) =
      [] := by
    apply List.eq_nil_of_length_eq_zero
    rw [(List.filter_congr (fun e _ => by rfl) :
      (edgesOf steps).filter (fun e => ([] : List String).contains e.1 && e.2 == n) =
        (edgesOf steps).filter (fun _ => false))]
    simp
  rw [h0]
  simp

theorem baseDeg_append (steps : List StepDef) (D layer : List String) (n : String)
    (hdisj : ∀ x ∈ layer, x ∉ D) :
    baseDeg steps (D ++ layer) n = baseDeg steps D n -
      (((edgesOf steps).filter (fun e => layer.contains e.1 && e.2 == n)).length : Int) := by
  unfold baseDeg edgesFrom
  have h2 : ((edgesOf steps).filter (fun e => (D ++ layer).contains e.1 && e.2 == n)).length =
      ((edgesOf steps).filter (fun e => (D.contains e.1 && e.2 == n) ||
        (layer.contains e.1 && e.2 == n))).length := by
    congr 1
    apply List.filter_congr
    intro e _
    have hca : (D ++ layer).contains e.1 = (D.contains e.1 || layer.contains e.1) := by
      rcases hD : D.contains e.1 with _ | _
      · rcases hL : layer.contains e.1 with _ | _
        · have : e.1 ∉ D ++ layer := by
            intro hm
            rcases List.mem_append.mp hm with h | h
            · rw [(contains_iff_mem _ _).mpr h] at hD; cases hD
            · rw [(contains_iff_mem _ _).mpr h] at hL; cases hL
          simp only [Bool.or_false]
          rcases hDL : (D ++ layer).contains e.1 with _ | _
          · rfl
          · exact absurd ((contains_iff_mem _ _).mp hDL) this
        · have : e.1 ∈ D ++ layer := List.mem_append.mpr (Or.inr ((contains_iff_mem _ _).mp hL))
          rw [(contains_iff_mem _ _).mpr this]
          rfl
      · have : e.1 ∈ D ++ layer := List.mem_append.mpr (Or.inl ((contains_iff_mem _ _).mp hD))
        rw [(contains_iff_mem _ _).mpr this]
        rfl
    rw [hca]
    cases (D.contains e.1) <;> cases (layer.contains e.1) <;> cases (e.2 == n) <;> rfl
  rw [h2, length_filter_or_disjoint]
  · push_cast
    ring
  · intro e _ ⟨hpe, hqe⟩
    have h1 : e.1 ∈ D := (contains_iff_mem _ _).mp (Bool.and_elim_left hpe)
    have h2 : e.1 ∈ layer := (contains_iff_mem _ _).mp (Bool.and_elim_left hqe)
    exact hdisj e.1 h2 h1

/-! ## The in-degree decrement loop -/

theorem foldl_processNode_flatMap (adj : List (String × List String)) :
    ∀ (layer : List String) (st : List (String × Int) × List String),
      layer.foldl (processNode adj) st =
        (layer.flatMap (fun m => (dget adj m).getD [])).foldl decTarget st := by
  intro layer
  induction layer with
  | nil => intro st; rfl
  | cons m layer ih =>
    intro st
    rw [List.foldl_cons, List.flatMap_cons, List.foldl_append, ih]
    rfl

theorem decTarget_fold (names : List String) (b : String → Int) :
    ∀ (ts pre : List String) (deg : List (String × Int)) (q : List String),
      (∀ t ∈ ts, t ∈ names) →
      (∀ n ∈ names, dget deg n = some (b n - (cntOcc pre n : Int))) →
      q.Nodup →
      (∀ n, n ∈ q ↔ n ∈ names ∧ 1 ≤ b n ∧ b n ≤ (cntOcc pre n : Int)) →
      (∀ n ∈ names, dget (ts.foldl decTarget (deg, q)).1 n =
          some (b n - (cntOcc (pre ++ ts) n : Int))) ∧
      (ts.foldl decTarget (deg, q)).2.Nodup ∧
      (∀ n, n ∈ (ts.foldl decTarget (deg, q)).2 ↔
          n ∈ names ∧ 1 ≤ b n ∧ b n ≤ (cntOcc (pre ++ ts) n : Int)) := by
  intro ts
  induction ts with
  | nil =>
    intro pre deg q _ hdeg hq hqc
    rw [List.append_nil]
    exact ⟨hdeg, hq, hqc⟩
  | cons t ts ih =>
    intro pre deg q hts hdeg hq hqc
    have htn : t ∈ names := hts t (List.mem_cons_self _ _)
    have hdegt := hdeg t htn
    -- one decTarget step
    have hstep : decTarget (deg, q) t =
        if dget (dmod deg t (· - 1)) t = some 0
        then (dmod deg t (· - 1), q ++ [t]) else (dmod deg t (· - 1), q) := by
      unfold decTarget
      rfl
    have hdegt2 : dget (dmod deg t (· - 1)) t = some (b t - (cntOcc pre t : Int) - 1) := by
      rw [dget_dmod_self, hdegt]
      rfl
    have hdeg1 : ∀ n ∈ names, dget (dmod deg t (· - 1)) n =
        some (b n - (cntOcc (pre ++ [t]) n : Int)) := by
      intro n hn
      by_cases hnt : n = t
      · subst hnt
        rw [hdegt2, cntOcc_append, cntOcc_singleton, if_pos rfl]
        congr 1
        push_cast
        ring
      · rw [dget_dmod_ne _ _ _ _ hnt, hdeg n hn, cntOcc_append, cntOcc_singleton,
          if_neg (fun he => hnt he.symm)]
        congr 2
    by_cases hcond : dget (dmod deg t (· - 1)) t = some 0
    · -- t is appended to the queue
      have hbt : b t = (cntOcc pre t : Int) + 1 := by
        rw [hdegt2] at hcond
        have := Option.some.inj hcond
        omega
      have htq : t ∉ q := by
        intro hmem
        have := (hqc t).mp hmem
        omega
      have hq1 : (q ++ [t]).Nodup := by
        rw [List.nodup_append]
        exact ⟨hq, List.nodup_singleton t, by
          intro x hx hx2
          rw [List.mem_singleton] at hx2
          subst hx2
          exact htq hx⟩
      have hqc1 : ∀ n, n ∈ q ++ [t] ↔
          n ∈ names ∧ 1 ≤ b n ∧ b n ≤ (cntOcc (pre ++ [t]) n : Int) := by
        intro n
        rw [List.mem_append, List.mem_singleton, cntOcc_append, cntOcc_singleton]
        by_cases hnt : n = t
        · subst hnt
          rw [if_pos rfl]
          constructor
          · intro _
            refine ⟨htn, by omega, by push_cast; omega⟩
          · intro _
            exact Or.inr rfl
        · rw [if_neg (fun he => hnt he.symm)]
          rw [hqc n]
          constructor
          · rintro (h | h)
            · exact ⟨h.1, h.2.1, by push_cast; omega⟩
            · exact absurd h hnt
          · rintro ⟨h1, h2, h3⟩
            exact Or.inl ⟨h1, h2, by push_cast at h3 ⊢; omega⟩
      have hfold : (t :: ts).foldl decTarget (deg, q) =
          ts.foldl decTarget (dmod deg t (· - 1), q ++ [t]) := by
        rw [List.foldl_cons, hstep, if_pos hcond]
      rw [hfold]
      have := ih (pre ++ [t]) (dmod deg t (· - 1)) (q ++ [t])
        (fun x hx => hts x (List.mem_cons_of_mem _ hx)) hdeg1 hq1 hqc1
      rw [List.append_assoc] at this
      exact this
    · -- t is not appended
      have hbt : b t ≠ (cntOcc pre t : Int) + 1 := by
        intro he
        apply hcond
        rw [hdegt2, he]
        norm_num
      have hqc1 : ∀ n, n ∈ q ↔
          n ∈ names ∧ 1 ≤ b n ∧ b n ≤ (cntOcc (pre ++ [t]) n : Int) := by
        intro n
        rw [hqc n, cntOcc_append, cntOcc_singleton]
        by_cases hnt : n = t
        · subst hnt
          rw [if_pos rfl]
          constructor
          · rintro ⟨h1, h2, h3⟩
            exact ⟨h1, h2, by push_cast; omega⟩
          · rintro ⟨h1, h2, h3⟩
            refine ⟨h1, h2, ?_⟩
            push_cast at h3
            omega
        · rw [if_neg (fun he => hnt he.symm)]
          constructor
          · rintro ⟨h1, h2, h3⟩
            exact ⟨h1, h2, by push_cast; omega⟩
          · rintro ⟨h1, h2, h3⟩
            exact ⟨h1, h2, by push_cast at h3 ⊢; omega⟩
      have hfold : (t :: ts).foldl decTarget (deg, q) =
          ts.foldl decTarget (dmod deg t (· - 1), q) := by
        rw [List.foldl_cons, hstep, if_neg hcond]
      rw [hfold]
      have := ih (pre ++ [t]) (dmod deg t (· - 1)) q
        (fun x hx => hts x (List.mem_cons_of_mem _ hx)) hdeg1 hq hqc1
      rw [List.append_assoc] at this
      exact this

/-! ## Kahn loop invariant -/

theorem flatMap_congr (l : List α) (f g : α → List β) (h : ∀ a ∈ l, f a = g a) :
    l.flatMap f = l.flatMap g := by
  induction l with
  | nil => rfl
  | cons a l ih =>
    rw [List.flatMap_cons, List.flatMap_cons, h a (List.mem_cons_self _ _),
      ih (fun x hx => h x (List.mem_cons_of_mem _ hx))]

theorem filter_length_le_imp (l : List (String × String)) (p q : String × String → Bool)
    (himp : ∀ e ∈ l, q e = true → p e = true)
    (hlen : (l.filter p).length ≤ (l.filter q).length) :
    ∀ e ∈ l, p e = true → q e = true := by
  induction l with
  | nil => intro e he; cases he
  | cons a l ih =>
    have himptl : ∀ e ∈ l, q e = true → p e = true :=
      fun e he => himp e (List.mem_cons_of_mem _ he)
    have hmono : (l.filter q).length ≤ (l.filter p).length := by
      rw [← List.countP_eq_length_filter, ← List.countP_eq_length_filter]
      exact List.countP_mono_left himptl
    intro e he hpe
    rw [List.filter_cons, List.filter_cons] at hlen
    rcases List.mem_cons.mp he with he1 | he2
    · subst he1
      by_contra hqe
      rw [if_pos hpe, if_neg hqe] at hlen
      simp only [List.length_cons] at hlen
      omega
    · by_cases hpa : p a = true
      · have hqa : q a = true := by
          by_contra hqa
          rw [if_pos hpa, if_neg hqa] at hlen
          simp only [List.length_cons] at hlen
          omega
        rw [if_pos hpa, if_pos hqa] at hlen
        simp only [List.length_cons] at hlen
        exact ih himptl (by omega) e he2 hpe
      · have hqa : ¬ q a = true := fun hqa => hpa (himp a (List.mem_cons_self _ _) hqa)
        rw [if_neg hpa, if_neg hqa] at hlen
        exact ih himptl hlen e he2 hpe

theorem edgesOf_tgt_mem (steps : List StepDef) (e : String × String) (he : e ∈ edgesOf steps) :
    e.2 ∈ steps.map (·.name) := by
  unfold edgesOf at he
  obtain ⟨s, hs, hmem⟩ := List.mem_flatMap.mp he
  obtain ⟨d, _, hde⟩ := List.mem_map.mp hmem
  rw [← hde]
  exact List.mem_map.mpr ⟨s, hs, rfl⟩

theorem mem_flatten_take (L : List (List String)) :
    ∀ (k : Nat) (x : String), x ∈ (L.take k).flatten →
      ∃ j, ∃ hj : j < L.length, j < k ∧ x ∈ L.get ⟨j, hj⟩ := by
  induction L with
  | nil =>
    intro k x hx
    rw [List.take_nil] at hx
    cases hx
  | cons l L ih =>
    intro k x hx
    cases k with
    | zero => cases hx
    | succ k =>
      rw [List.take_succ_cons, List.flatten_cons, List.mem_append] at hx
      rcases hx with h | h
      · exact ⟨0, by simp, by omega, h⟩
      · obtain ⟨j, hj, hjk, hmem⟩ := ih k x h
        exact ⟨j + 1, by simpa using Nat.succ_lt_succ hj, by omega, hmem⟩

theorem flatten_nodup_unique (L : List (List String)) (hnd : L.flatten.Nodup)
    (x : String) (j k : Nat) (hj : j < L.length) (hk : k < L.length)
    (hxj : x ∈ L.get ⟨j, hj⟩) (hxk : x ∈ L.get ⟨k, hk⟩) : j = k := by
  by_contra hne
  have hpw := (List.nodup_flatten.mp hnd).2
  rw [List.pairwise_iff_get] at hpw
  rcases Nat.lt_or_ge j k with h | h
  · exact (hpw ⟨j, hj⟩ ⟨k, hk⟩ h) hxj hxk
  · have h2 : k < j := by omega
    exact (hpw ⟨k, hk⟩ ⟨j, hj⟩ h2) hxk hxj

theorem kahnLoop_inv (steps : List StepDef) (adj : List (String × List String))
    (hadj : ∀ m, dget adj m = if m ∈ steps.map (·.name) then
        some (((edgesOf steps).filter (fun e => e.1 == m)).map (·.2)) else none) :
    ∀ (fuel : Nat) (deg : List (String × Int)) (q D : List String),
      (D ++ q).Nodup →
      (∀ x ∈ D ++ q, x ∈ steps.map (·.name)) →
      (∀ n ∈ steps.map (·.name), dget deg n = some (baseDeg steps D n)) →
      (∀ n ∈ steps.map (·.name), (n ∈ D ∨ n ∈ q) ↔ baseDeg steps D n ≤ 0) →
      (D ++ (kahnLoop adj fuel deg q).flatten).Nodup ∧
      (∀ x ∈ (kahnLoop adj fuel deg q).flatten, x ∈ steps.map (·.name)) ∧
      (∀ layer ∈ kahnLoop adj fuel deg q, layer.Pairwise strLeP ∧ layer ≠ []) ∧
      (∀ k, ∀ hk : k < (kahnLoop adj fuel deg q).length,
        ∀ n ∈ (kahnLoop adj fuel deg q).get ⟨k, hk⟩,
        ∀ d, (d, n) ∈ edgesOf steps →
          d ∈ D ∨ d ∈ ((kahnLoop adj fuel deg q).take k).flatten) := by
  intro fuel
  induction fuel with
  | zero =>
    intro deg q D hnd hmem hdeg hiff
    have hL : kahnLoop adj 0 deg q = [] := by rw [kahnLoop]
    rw [hL]
    refine ⟨by simpa using (List.nodup_append.mp hnd).1, ?_, ?_, ?_⟩
    · intro x hx; cases hx
    · intro layer hl; cases hl
    · intro k hk; simp at hk
  | succ fuel ih =>
    intro deg q D hnd hmem hdeg hiff
    cases q with
    | nil =>
      have hL : kahnLoop adj (fuel + 1) deg [] = [] := by
        rw [kahnLoop]
        all_goals simp
      rw [hL]
      refine ⟨by simpa using (List.nodup_append.mp hnd).1, ?_, ?_, ?_⟩
      · intro x hx; cases hx
      · intro layer hl; cases hl
      · intro k hk; simp at hk
    | cons q0 qrest =>
      have hL : kahnLoop adj (fuel + 1) deg (q0 :: qrest) =
          (List.insertionSort strLeP (q0 :: qrest)) ::
            kahnLoop adj fuel
              ((List.insertionSort strLeP (q0 :: qrest)).foldl (processNode adj) (deg, [])).1
              ((List.insertionSort strLeP (q0 :: qrest)).foldl (processNode adj) (deg, [])).2 := by
        rw [kahnLoop]
        all_goals simp
      rw [hL]
      set layer := List.insertionSort strLeP (q0 :: qrest) with hlayerdef
      set st := layer.foldl (processNode adj) (deg, []) with hstdef
      have hperm : layer.Perm (q0 :: qrest) := List.perm_insertionSort _ _
      have hlmem : ∀ x, x ∈ layer ↔ x ∈ q0 :: qrest := fun x => hperm.mem_iff
      have hndparts := List.nodup_append.mp hnd
      have hDnd : D.Nodup := hndparts.1
      have hqnd : (q0 :: qrest).Nodup := hndparts.2.1
      have hDq : D.Disjoint (q0 :: qrest) := hndparts.2.2
      have hlnd : layer.Nodup := hperm.symm.nodup hqnd
      have hsorted : layer.Pairwise strLeP :=
        @List.sorted_insertionSort String strLeP _ ⟨strLeP_total⟩ ⟨strLeP_trans⟩ (q0 :: qrest)
      have hlne : layer ≠ [] := by
        intro h
        have hlen := hperm.length_eq
        rw [h] at hlen
        simp at hlen
      have hlsub : ∀ x ∈ layer, x ∈ steps.map (·.name) := fun x hx =>
        hmem x (List.mem_append.mpr (Or.inr ((hlmem x).mp hx)))
      -- flatten the per-node folds into one fold over all edge targets
      have hts_eq : layer.flatMap (fun m => (dget adj m).getD []) =
          layer.flatMap (fun m => ((edgesOf steps).filter (fun e => e.1 == m)).map (·.2)) := by
        apply flatMap_congr
        intro m hm
        rw [hadj m, if_pos (hlsub m hm)]
        rfl
      have hflat : st = (layer.flatMap
          (fun m => ((edgesOf steps).filter (fun e => e.1 == m)).map (·.2))).foldl
            decTarget (deg, []) := by
        rw [hstdef, foldl_processNode_flatMap, hts_eq]
      set ts := layer.flatMap (fun m => ((edgesOf steps).filter (fun e => e.1 == m)).map (·.2))
        with htsdef
      have hts_names : ∀ t ∈ ts, t ∈ steps.map (·.name) := by
        intro t ht
        obtain ⟨m, hm, hmem2⟩ := List.mem_flatMap.mp ht
        obtain ⟨e, he, hee⟩ := List.mem_map.mp hmem2
        rw [← hee]
        exact edgesOf_tgt_mem steps e (List.mem_of_mem_filter he)
      have hcnt : ∀ n, cntOcc ts n =
          ((edgesOf steps).filter (fun e => layer.contains e.1 && e.2 == n)).length :=
        fun n => cntOcc_flatMap_succs (edgesOf steps) n layer hlnd
      have hdeg0 : ∀ n ∈ steps.map (·.name),
          dget deg n = some (baseDeg steps D n - (cntOcc [] n : Int)) := by
        intro n hn
        rw [hdeg n hn]
        have h0 : cntOcc [] n = 0 := rfl
        rw [h0]
        norm_num
      have hq0c : ∀ n, n ∈ ([] : List String) ↔
          n ∈ steps.map (·.name) ∧ 1 ≤ baseDeg steps D n ∧
            baseDeg steps D n ≤ (cntOcc [] n : Int) := by
        intro n
        constructor
        · intro h; cases h
        · rintro ⟨_, h1, h2⟩
          have h0 : cntOcc [] n = 0 := rfl
          rw [h0] at h2
          push_cast at h2
          omega
      obtain ⟨hdeg', hqnd', hqc'⟩ := decTarget_fold (steps.map (·.name)) (baseDeg steps D)
        ts [] deg [] hts_names hdeg0 List.nodup_nil hq0c
      rw [List.nil_append] at hdeg' hqc'
      have hdisjDlayer : ∀ x ∈ layer, x ∉ D := fun x hx hxD => hDq hxD ((hlmem x).mp hx)
      have hbd' : ∀ n, baseDeg steps (D ++ layer) n =
          baseDeg steps D n - (cntOcc ts n : Int) := by
        intro n
        rw [baseDeg_append steps D layer n hdisjDlayer, hcnt n]
      -- invariant for the recursive call
      have hdeg'' : ∀ n ∈ steps.map (·.name),
          dget st.1 n = some (baseDeg steps (D ++ layer) n) := by
        intro n hn
        rw [hflat]
        rw [hdeg' n hn, hbd' n]
      have hqmem'' : ∀ n ∈ st.2, n ∈ steps.map (·.name) := by
        intro n hn
        rw [hflat] at hn
        exact ((hqc' n).mp hn).1
      have hqout : ∀ n ∈ st.2, n ∉ D ∧ n ∉ layer := by
        intro n hn
        rw [hflat] at hn
        obtain ⟨hn1, hn2, _⟩ := (hqc' n).mp hn
        have hnot : ¬ (n ∈ D ∨ n ∈ q0 :: qrest) := by
          intro hor
          have := (hiff n hn1).mp hor
          omega
        constructor
        · intro hD2; exact hnot (Or.inl hD2)
        · intro hl2; exact hnot (Or.inr ((hlmem n).mp hl2))
      have hnd'' : ((D ++ layer) ++ st.2).Nodup := by
        rw [List.nodup_append]
        refine ⟨?_, ?_, ?_⟩
        · rw [List.nodup_append]
          exact ⟨hDnd, hlnd, fun a haD halayer => hdisjDlayer a halayer haD⟩
        · rw [hflat]
          exact hqnd'
        · intro a ha ha2
          rcases List.mem_append.mp ha with h | h
          · exact (hqout a ha2).1 h
          · exact (hqout a ha2).2 h
      have hmem'' : ∀ x ∈ (D ++ layer) ++ st.2, x ∈ steps.map (·.name) := by
        intro x hx
        rcases List.mem_append.mp hx with h | h
        · rcases List.mem_append.mp h with h2 | h2
          · exact hmem x (List.mem_append.mpr (Or.inl h2))
          · exact hlsub x h2
        · exact hqmem'' x h
      have hiff'' : ∀ n ∈ steps.map (·.name),
          (n ∈ D ++ layer ∨ n ∈ st.2) ↔ baseDeg steps (D ++ layer) n ≤ 0 := by
        intro n hn
        rw [hbd' n]
        constructor
        · intro hor
          rcases hor with h | h
          · have hbn : baseDeg steps D n ≤ 0 := by
              apply (hiff n hn).mp
              rcases List.mem_append.mp h with h2 | h2
              · exact Or.inl h2
              · exact Or.inr ((hlmem n).mp h2)
            have : (0 : Int) ≤ (cntOcc ts n : Int) := Int.natCast_nonneg _
            omega
          · rw [hflat] at h
            obtain ⟨_, _, h3⟩ := (hqc' n).mp h
            omega
        · intro hle
          by_cases hbn : baseDeg steps D n ≤ 0
          · left
            rcases (hiff n hn).mpr hbn with h | h
            · exact List.mem_append.mpr (Or.inl h)
            · exact List.mem_append.mpr (Or.inr ((hlmem n).mpr h))
          · right
            rw [hflat]
            exact (hqc' n).mpr ⟨hn, by omega, by omega⟩
      obtain ⟨ha, hb, hc, hd⟩ := ih st.1 st.2 (D ++ layer) hnd'' hmem'' hdeg'' hiff''
      refine ⟨?_, ?_, ?_, ?_⟩
      · rw [List.flatten_cons, ← List.append_assoc]
        exact ha
      · intro x hx
        rw [List.flatten_cons, List.mem_append] at hx
        rcases hx with h | h
        · exact hlsub x h
        · exact hb x h
      · intro l hl
        rcases List.mem_cons.mp hl with h | h
        · rw [h]; exact ⟨hsorted, hlne⟩
        · exact hc l h
      · intro k hk n hnk d hedge
        cases k with
        | zero =>
          left
          -- every incoming edge of a frontier node has its source in D
          have hnlayer : n ∈ layer := hnk
          have hnq : n ∈ q0 :: qrest := (hlmem n).mp hnlayer
          have hnnames : n ∈ steps.map (·.name) := hlsub n hnlayer
          have hbn : baseDeg steps D n ≤ 0 := (hiff n hnnames).mp (Or.inr hnq)
          unfold baseDeg at hbn
          have hlen : ((edgesOf steps).filter (fun e => e.2 == n)).length ≤
              ((edgesOf steps).filter (fun e => D.contains e.1 && e.2 == n)).length := by
            unfold indeg0 edgesFrom at hbn
            omega
          have hpt := filter_length_le_imp (edgesOf steps)
            (fun e => e.2 == n) (fun e => D.contains e.1 && e.2 == n)
            (fun e _ hq2 => Bool.and_elim_right hq2) hlen (d, n) hedge (by simp)
          exact (contains_iff_mem _ _).mp (Bool.and_elim_left hpt)
        | succ k =>
          have hk2 : k < (kahnLoop adj fuel st.1 st.2).length := by
            simpa using hk
          have hnk2 : n ∈ (kahnLoop adj fuel st.1 st.2).get ⟨k, hk2⟩ := hnk
          rcases hd k hk2 n hnk2 d hedge with h | h
          · rcases List.mem_append.mp h with h2 | h2
            · exact Or.inl h2
            · right
              rw [List.take_succ_cons, List.flatten_cons, List.mem_append]
              exact Or.inl h2
          · right
            rw [List.take_succ_cons, List.flatten_cons, List.mem_append]
            exact Or.inr h

/-! ## getExecutionOrder under resolvable dependencies -/

theorem getExecutionOrder_spec (wf : WorkflowDef)
    (hres : ∀ s ∈ wf.steps, ∀ d ∈ s.depends_on, d ∈ wf.steps.map (·.name)) :
    ∃ L, getExecutionOrder wf = Except.ok L ∧
      L.flatten.Nodup ∧
      (∀ x ∈ L.flatten, x ∈ wf.steps.map (·.name)) ∧
      (∀ layer ∈ L, layer.Pairwise strLeP ∧ layer ≠ []) ∧
      (∀ k, ∀ hk : k < L.length, ∀ n ∈ L.get ⟨k, hk⟩, ∀ d, (d, n) ∈ edgesOf wf.steps →
        d ∈ (L.take k).flatten) := by
  obtain ⟨adj, deg, hbg, hA, hD, hKnd⟩ := buildGraph_rep wf.steps hres
  set queue0 := (deg.filter (fun p => p.2 == 0)).map (·.1) with hq0def
  have hgeo : getExecutionOrder wf =
      Except.ok (kahnLoop adj (wf.steps.length + 1) deg queue0) := by
    unfold getExecutionOrder
    rw [hbg]
  have hq0sub : queue0.Sublist (keysOf deg) :=
    List.Sublist.map (·.1) (List.filter_sublist deg)
  have hq0nd : queue0.Nodup := hq0sub.nodup hKnd
  have hq0iff : ∀ n, n ∈ queue0 ↔ dget deg n = some 0 :=
    fun n => mem_queue0_iff deg hKnd n 0
  have hq0names : ∀ n ∈ queue0, n ∈ wf.steps.map (·.name) := by
    intro n hn
    have h2 := (hq0iff n).mp hn
    by_contra hnot
    rw [hD n, if_neg hnot] at h2
    cases h2
  have hdeg0 : ∀ n ∈ wf.steps.map (·.name), dget deg n = some (baseDeg wf.steps [] n) := by
    intro n hn
    rw [hD n, if_pos hn, baseDeg_nil]
  have hiff0 : ∀ n ∈ wf.steps.map (·.name),
      (n ∈ ([] : List String) ∨ n ∈ queue0) ↔ baseDeg wf.steps [] n ≤ 0 := by
    intro n hn
    rw [baseDeg_nil]
    constructor
    · rintro (h | h)
      · cases h
      · have h2 := (hq0iff n).mp h
        rw [hD n, if_pos hn] at h2
        have h3 := Option.some.inj h2
        omega
    · intro hle
      right
      apply (hq0iff n).mpr
      rw [hD n, if_pos hn]
      have h4 : (indeg0 wf.steps n : Int) = 0 :=
        le_antisymm hle (Int.natCast_nonneg _)
      rw [h4]
  obtain ⟨ha, hb, hc, hd⟩ := kahnLoop_inv wf.steps adj hA (wf.steps.length + 1) deg queue0 []
    (by simpa using hq0nd)
    (by
      intro x hx
      rw [List.nil_append] at hx
      exact hq0names x hx)
    hdeg0 hiff0
  refine ⟨kahnLoop adj (wf.steps.length + 1) deg queue0, hgeo, by simpa using ha, hb, hc, ?_⟩
  intro k hk n hn d hedge
  rcases hd k hk n hn d hedge with h | h
  · cases h
  · exact h

/-! ## validate analysis -/

theorem preErrors_eq (wf : WorkflowDef) (hne : ¬ wf.steps.isEmpty = true) :
    preErrors wf =
      (if wf.name == "" || pyStrip wf.name == "" then ["Workflow name cannot be empty"]
       else []) ++
      wf.steps.flatMap perStepErrors ++
      (if (wf.steps.map (·.name)).dedup.length ≠ wf.steps.length then
        ["Duplicate step names found"] else []) ++
      unknownDepErrors (wf.steps.map (·.name)) wf.steps := by
  unfold preErrors
  rw [if_neg hne]

theorem nodup_of_preErrors_nil (wf : WorkflowDef) (hne : ¬ wf.steps.isEmpty = true)
    (hpe : preErrors wf = []) : (wf.steps.map (·.name)).Nodup := by
  rw [preErrors_eq wf hne] at hpe
  have h1 := List.append_eq_nil.mp hpe
  have h2 := List.append_eq_nil.mp h1.1
  have hdup := h2.2
  by_cases hcond : (wf.steps.map (·.name)).dedup.length ≠ wf.steps.length
  · rw [if_pos hcond] at hdup
    cases hdup
  · push_neg at hcond
    have hlen2 : (wf.steps.map (·.name)).dedup.length = (wf.steps.map (·.name)).length := by
      rw [hcond, List.length_map]
    have heq := List.Sublist.eq_of_length (List.dedup_sublist _) hlen2
    rw [← heq]
    exact List.nodup_dedup _

theorem deps_resolve_of_preErrors_nil (wf : WorkflowDef) (hne : ¬ wf.steps.isEmpty = true)
    (hpe : preErrors wf = []) :
    ∀ s ∈ wf.steps, ∀ d ∈ s.depends_on, d ∈ wf.steps.map (·.name) := by
  rw [preErrors_eq wf hne] at hpe
  have h1 := List.append_eq_nil.mp hpe
  have hdep := h1.2
  intro s hs d hd
  unfold unknownDepErrors at hdep
  rw [List.flatMap_eq_nil_iff] at hdep
  have h2 := hdep s hs
  rw [List.filterMap_eq_nil_iff] at h2
  have h3 := h2 d hd
  by_cases hc : (wf.steps.map (·.name)).contains d = true
  · exact (contains_iff_mem _ _).mp hc
  · rw [if_neg hc] at h3
    cases h3

theorem validate_ok_nil (wf : WorkflowDef) (hv : validate wf = Except.ok []) :
    ¬ wf.steps.isEmpty = true ∧ preErrors wf = [] ∧
      ∃ L, getExecutionOrder wf = Except.ok L ∧
        (L.map List.length).sum = wf.steps.length := by
  unfold validate at hv
  by_cases hemp : wf.steps.isEmpty = true
  · rw [if_pos hemp] at hv
    have hpe := Except.ok.inj hv
    unfold preErrors at hpe
    rw [if_pos hemp] at hpe
    have h1 := List.append_eq_nil.mp hpe
    cases h1.2
  · rw [if_neg hemp] at hv
    by_cases hpe : preErrors wf = []
    · rw [if_pos hpe] at hv
      cases hgeo : getExecutionOrder wf with
      | error e =>
        rw [hgeo] at hv
        replace hv : (Except.error e : Except String (List String)) = Except.ok [] := hv
        cases hv
      | ok L =>
        rw [hgeo] at hv
        replace hv : (if (L.map List.length).sum ≠ wf.steps.length then
            Except.ok ["Circular dependency detected in workflow steps"]
          else Except.ok ([] : List String)) = Except.ok [] := hv
        by_cases hsum : (L.map List.length).sum ≠ wf.steps.length
        · rw [if_pos hsum] at hv
          have h2 := Except.ok.inj hv
          cases h2
        · rw [if_neg hsum] at hv
          push_neg at hsum
          exact ⟨hemp, hpe, L, rfl, hsum⟩
    · rw [if_neg hpe] at hv
      exact absurd (Except.ok.inj hv) hpe

theorem mem_edgesOf (steps : List StepDef) (s : StepDef) (hs : s ∈ steps) (d : String)
    (hd : d ∈ s.depends_on) : (d, s.name) ∈ edgesOf steps :=
  List.mem_flatMap.mpr ⟨s, hs, List.mem_map.mpr ⟨d, hd, rfl⟩⟩

theorem perm_of_nodup_subset_length (l1 l2 : List String) (h1 : l1.Nodup)
    (hsub : ∀ x ∈ l1, x ∈ l2) (hlen : l2.length ≤ l1.length) : l1.Perm l2 :=
  (List.Nodup.subperm h1 hsub).perm_of_length_le hlen

/-! ## C4: valid workflows are layered into a partition respecting dependencies -/

/-- C4.  For every `WorkflowDef` on which `validate` returns the empty error list,
`get_execution_order` partitions the steps: the layer sizes sum to the number of
steps, the concatenation of the layers is a permutation of the step names (so
each step name appears in exactly one layer), every dependency of a step in
layer `k` lies in some strictly earlier layer `j < k`, and each layer is sorted
lexicographically (Python string order), making the layering deterministic. -/
theorem workflow_valid_execution_order_partitions (wf : WorkflowDef)
    (hv : validate wf = Except.ok []) :
    ∃ L, getExecutionOrder wf = Except.ok L ∧
      (L.map List.length).sum = wf.steps.length ∧
      L.flatten.Perm (wf.steps.map (·.name)) ∧
      (∀ layer ∈ L, layer.Pairwise strLeP) ∧
      (∀ s ∈ wf.steps, ∃ k, ∃ hk : k < L.length, s.name ∈ L.get ⟨k, hk⟩ ∧
        ∀ k2, ∀ hk2 : k2 < L.length, s.name ∈ L.get ⟨k2, hk2⟩ → k2 = k) ∧
      (∀ k, ∀ hk : k < L.length, ∀ s ∈ wf.steps, s.name ∈ L.get ⟨k, hk⟩ →
        ∀ d ∈ s.depends_on, ∃ j, ∃ hj : j < L.length, j < k ∧ d ∈ L.get ⟨j, hj⟩) := by
  obtain ⟨hemp, hpe, L0, hgeo0, hsum0⟩ := validate_ok_nil wf hv
  have hres := deps_resolve_of_preErrors_nil wf hemp hpe
  obtain ⟨L, hgeo, hfnd, hfsub, hlay, hdep⟩ := getExecutionOrder_spec wf hres
  have hLL : L0 = L := by
    rw [hgeo0] at hgeo
    exact Except.ok.inj hgeo
  have hsum : (L.map List.length).sum = wf.steps.length := hLL ▸ hsum0
  have hflen : L.flatten.length = wf.steps.length := by
    rw [List.length_flatten, hsum]
  have hperm : L.flatten.Perm (wf.steps.map (·.name)) := by
    apply perm_of_nodup_subset_length _ _ hfnd hfsub
    rw [List.length_map, ← hflen]
  refine ⟨L, hgeo, hsum, hperm, fun layer hl => (hlay layer hl).1, ?_, ?_⟩
  · intro s hs
    have hsname : s.name ∈ L.flatten := hperm.mem_iff.mpr (List.mem_map.mpr ⟨s, hs, rfl⟩)
    obtain ⟨l, hlmem, hsl⟩ := List.mem_flatten.mp hsname
    obtain ⟨⟨k, hk⟩, hget⟩ := List.mem_iff_get.mp hlmem
    refine ⟨k, hk, by rw [hget]; exact hsl, ?_⟩
    intro k2 hk2 hs2
    exact flatten_nodup_unique L hfnd s.name k2 k hk2 hk hs2 (by rw [hget]; exact hsl)
  · intro k hk s hs hsname d hd
    exact mem_flatten_take L k d (hdep k hk s.name hsname d (mem_edgesOf wf.steps s hs d hd))

/-- Witness for C4 at a concrete three-step workflow with dependencies. -/
theorem workflow_valid_execution_order_partitions_witness :
    ∃ L, getExecutionOrder ⟨"wf", "", [⟨"b", "p", "default", [], 300⟩,
        ⟨"a", "p", "default", [], 300⟩, ⟨"c", "p", "default", ["a", "b"], 300⟩]⟩ =
      Except.ok L ∧
      (L.map List.length).sum = 3 ∧
      L.flatten.Perm ["b", "a", "c"] ∧
      (∀ layer ∈ L, layer.Pairwise strLeP) ∧
      (∀ s ∈ [(⟨"b", "p", "default", [], 300⟩ : StepDef),
          ⟨"a", "p", "default", [], 300⟩, ⟨"c", "p", "default", ["a", "b"], 300⟩],
        ∃ k, ∃ hk : k < L.length, s.name ∈ L.get ⟨k, hk⟩ ∧
          ∀ k2, ∀ hk2 : k2 < L.length, s.name ∈ L.get ⟨k2, hk2⟩ → k2 = k) ∧
      (∀ k, ∀ hk : k < L.length,
        ∀ s ∈ [(⟨"b", "p", "default", [], 300⟩ : StepDef),
          ⟨"a", "p", "default", [], 300⟩, ⟨"c", "p", "default", ["a", "b"], 300⟩],
        s.name ∈ L.get ⟨k, hk⟩ →
        ∀ d ∈ s.depends_on, ∃ j, ∃ hj : j < L.length, j < k ∧ d ∈ L.get ⟨j, hj⟩) :=
  workflow_valid_execution_order_partitions
    ⟨"wf", "", [⟨"b", "p", "default", [], 300⟩, ⟨"a", "p", "default", [], 300⟩,
      ⟨"c", "p", "default", ["a", "b"], 300⟩]⟩ (by rfl)

/-! ## C5: cycles and validation -/

/-- C5 counterexample.  A workflow whose dependency graph has a cycle (`a`
depends on `b` and `b` on `a`, all deps resolving) but whose step `b` has an
empty prompt: `validate` reports only the empty-prompt error, so the returned
error list does not contain the circular-dependency message, refuting the
claim that a cyclic workflow always gets a "circular dependency" message. -/
theorem workflow_cycle_message_counterexample :
    (∃ x, Relation.TransGen
        (DepEdge ⟨"wf", "", [⟨"a", "pa", "default", ["b"], 300⟩,
          ⟨"b", "", "default", ["a"], 300⟩]⟩) x x) ∧
    validate ⟨"wf", "", [⟨"a", "pa", "default", ["b"], 300⟩,
        ⟨"b", "", "default", ["a"], 300⟩]⟩ =
      Except.ok ["Step \x27b\x27 has an empty prompt"] ∧
    "Circular dependency detected in workflow steps" ∉
      ["Step \x27b\x27 has an empty prompt"] := by
  refine ⟨⟨"a", ?_⟩, by rfl, by decide⟩
  exact Relation.TransGen.tail
    (Relation.TransGen.single
      ⟨⟨"b", "", "default", ["a"], 300⟩, by decide, rfl, by decide⟩)
    ⟨⟨"a", "pa", "default", ["b"], 300⟩, by decide, rfl, by decide⟩

/-- C5 (amended).  For every workflow whose dependency graph contains a cycle,
`validate` returns (without raising) a non-empty error list; the list is
exactly `["Circular dependency detected in workflow steps"]` when no earlier
validation error fires, but earlier errors (bad names, empty prompts, bad
timeouts, duplicates, unknown deps) mask the cycle message entirely. -/
theorem workflow_cycle_validation_errors (wf : WorkflowDef) (a : String)
    (hcyc : Relation.TransGen (DepEdge wf) a a) :
    ∃ errs, validate wf = Except.ok errs ∧ errs ≠ [] ∧
      (preErrors wf = [] → errs = ["Circular dependency detected in workflow steps"]) := by
  have hstep : ∃ s, s ∈ wf.steps := by
    cases hcyc with
    | single h => obtain ⟨s, hs, _⟩ := h; exact ⟨s, hs⟩
    | tail h1 h2 => obtain ⟨s, hs, _⟩ := h2; exact ⟨s, hs⟩
  obtain ⟨s0, hs0⟩ := hstep
  have hemp : ¬ wf.steps.isEmpty = true := by
    intro h
    rw [List.isEmpty_iff] at h
    rw [h] at hs0
    cases hs0
  by_cases hpe : preErrors wf = []
  · have hres := deps_resolve_of_preErrors_nil wf hemp hpe
    obtain ⟨L, hgeo, hfnd, hfsub, hlay, hdep⟩ := getExecutionOrder_spec wf hres
    have hmemnames : ∀ x y, DepEdge wf x y →
        x ∈ wf.steps.map (·.name) ∧ y ∈ wf.steps.map (·.name) := by
      rintro x y ⟨s, hs, hname, hxdep⟩
      exact ⟨hres s hs x hxdep, hname ▸ List.mem_map.mpr ⟨s, hs, rfl⟩⟩
    have hsumne : (L.map List.length).sum ≠ wf.steps.length := by
      intro hsum
      have hflen : L.flatten.length = wf.steps.length := by
        rw [List.length_flatten, hsum]
      have hperm : L.flatten.Perm (wf.steps.map (·.name)) := by
        apply perm_of_nodup_subset_length _ _ hfnd hfsub
        rw [List.length_map, ← hflen]
      have hedge_lt : ∀ x y, DepEdge wf x y →
          ∀ kx ky, ∀ hkx : kx < L.length, ∀ hky : ky < L.length,
          x ∈ L.get ⟨kx, hkx⟩ → y ∈ L.get ⟨ky, hky⟩ → kx < ky := by
        rintro x y ⟨s, hs, hname, hxdep⟩ kx ky hkx hky hx hy
        have hedge : (x, y) ∈ edgesOf wf.steps :=
          hname ▸ mem_edgesOf wf.steps s hs x hxdep
        obtain ⟨j, hj, hjk, hmemj⟩ := mem_flatten_take L ky x (hdep ky hky y hy x hedge)
        have := flatten_nodup_unique L hfnd x j kx hj hkx hmemj hx
        omega
      have hidx : ∀ x, x ∈ wf.steps.map (·.name) →
          ∃ k, ∃ hk : k < L.length, x ∈ L.get ⟨k, hk⟩ := by
        intro x hx
        have hxf : x ∈ L.flatten := hperm.mem_iff.mpr hx
        obtain ⟨l, hl, hxl⟩ := List.mem_flatten.mp hxf
        obtain ⟨⟨k, hk⟩, hget⟩ := List.mem_iff_get.mp hl
        exact ⟨k, hk, by rw [hget]; exact hxl⟩
      have htrans_lt : ∀ x y, Relation.TransGen (DepEdge wf) x y →
          ∀ kx ky, ∀ hkx : kx < L.length, ∀ hky : ky < L.length,
          x ∈ L.get ⟨kx, hkx⟩ → y ∈ L.get ⟨ky, hky⟩ → kx < ky := by
        intro x y hxy
        induction hxy with
        | single h => exact hedge_lt _ _ h
        | tail hxb hby ihb =>
          rename_i b c
          intro kx ky hkx hky hx hy
          obtain ⟨kb, hkb, hb⟩ := hidx b (hmemnames b c hby).1
          have h1 := ihb kx kb hkx hkb hx hb
          have h2 := hedge_lt b c hby kb ky hkb hky hb hy
          omega
      have hanames : a ∈ wf.steps.map (·.name) := by
        cases hcyc with
        | single h => exact (hmemnames _ _ h).1
        | tail h1 h2 => exact (hmemnames _ _ h2).2
      obtain ⟨ka, hka, hma⟩ := hidx a hanames
      have := htrans_lt a a hcyc ka ka hka hka hma hma
      omega
    refine ⟨["Circular dependency detected in workflow steps"], ?_, by simp, fun _ => rfl⟩
    unfold validate
    rw [if_neg hemp, if_pos hpe, hgeo]
    show (if (L.map List.length).sum ≠ wf.steps.length then
        Except.ok ["Circular dependency detected in workflow steps"]
      else Except.ok ([] : List String)) =
      Except.ok ["Circular dependency detected in workflow steps"]
    rw [if_pos hsumne]
  · refine ⟨preErrors wf, ?_, hpe, fun h => absurd h hpe⟩
    unfold validate
    rw [if_neg hemp, if_neg hpe]

/-- Witness for C5 (amended) at a concrete two-step cyclic workflow. -/
theorem workflow_cycle_validation_errors_witness :
    ∃ errs, validate ⟨"wf", "", [⟨"a", "pa", "default", ["b"], 300⟩,
        ⟨"b", "pb", "default", ["a"], 300⟩]⟩ = Except.ok errs ∧ errs ≠ [] ∧
      (preErrors ⟨"wf", "", [⟨"a", "pa", "default", ["b"], 300⟩,
          ⟨"b", "pb", "default", ["a"], 300⟩]⟩ = [] →
        errs = ["Circular dependency detected in workflow steps"]) :=
  workflow_cycle_validation_errors _ "a"
    (Relation.TransGen.tail
      (Relation.TransGen.single
        ⟨⟨"b", "pb", "default", ["a"], 300⟩, by decide, rfl, by decide⟩)
      ⟨⟨"a", "pa", "default", ["b"], 300⟩, by decide, rfl, by decide⟩)

/-! ## C10: totality of get_execution_order -/

/-- C10.  `get_execution_order` is total exactly under the resolvable-dependency
precondition: it returns without error for every workflow whose `depends_on`
lists name only existing sibling steps; it raises a dictionary `KeyError` on a
workflow naming a non-existent step; and `validate` itself never propagates an
exception (it only invokes the layering after all earlier checks pass, when
dependencies are known to resolve). -/
theorem execution_order_total_iff_deps_resolve :
    (∀ wf : WorkflowDef,
      (∀ s ∈ wf.steps, ∀ d ∈ s.depends_on, d ∈ wf.steps.map (·.name)) →
      ∃ L, getExecutionOrder wf = Except.ok L) ∧
    getExecutionOrder ⟨"w", "", [⟨"a", "p", "default", ["ghost"], 300⟩]⟩ =
      Except.error "KeyError: ghost" ∧
    (∀ wf : WorkflowDef, ∃ r, validate wf = Except.ok r) := by
  refine ⟨?_, by rfl, ?_⟩
  · intro wf hres
    obtain ⟨L, hgeo, _⟩ := getExecutionOrder_spec wf hres
    exact ⟨L, hgeo⟩
  · intro wf
    unfold validate
    by_cases hemp : wf.steps.isEmpty = true
    · rw [if_pos hemp]
      exact ⟨_, rfl⟩
    · rw [if_neg hemp]
      by_cases hpe : preErrors wf = []
      · rw [if_pos hpe]
        obtain ⟨L, hgeo, _⟩ :=
          getExecutionOrder_spec wf (deps_resolve_of_preErrors_nil wf hemp hpe)
        rw [hgeo]
        show ∃ r, (if (L.map List.length).sum ≠ wf.steps.length then
            Except.ok ["Circular dependency detected in workflow steps"]
          else Except.ok ([] : List String)) = Except.ok r
        by_cases hsum : (L.map List.length).sum ≠ wf.steps.length
        · rw [if_pos hsum]
          exact ⟨_, rfl⟩
        · rw [if_neg hsum]
          exact ⟨_, rfl⟩
      · rw [if_neg hpe]
        exact ⟨_, rfl⟩

/-- Witness for C10: the total-on-resolvable-deps component at a concrete
workflow. -/
theorem execution_order_total_iff_deps_resolve_witness :
    ∃ L, getExecutionOrder ⟨"w", "", [⟨"a", "p", "default", [], 300⟩]⟩ =
      Except.ok L :=
  execution_order_total_iff_deps_resolve.1
    ⟨"w", "", [⟨"a", "p", "default", [], 300⟩]⟩ (by decide)

end Grip
